import Mathlib

/-!
Verification of the source-matching engine of the media-reliability app.

The development shallowly embeds the TypeScript code under `src/`:

* `src/matcher.ts` — the per-channel predicates (`isNameInTitle`,
  `isTwitterInTitle`, `isTwitterInUrl`, `isDomainInUrl`,
  `isTwitterInLinks`, `isDomainInLinks`, `isNameInBody`,
  `isTwitterInBody`) and the aggregator `findSourcesInPost`;
* `src/helpers.ts` — `normalizeText`, `getPostLinks`, `processPost`;
* `src/schema.ts` — the shape of a validated `Source`.

The matcher builds JavaScript regular expressions at run time by string
interpolation of registry data into fixed templates.  Each such regex is
embedded in two parts, mirroring what `new RegExp(pattern).test(text)`
does:

1. the exact pattern string the source code builds (`nameCommonPattern`
   and friends), fed to a syntax checker `regexSyntaxOk` that models
   whether `new RegExp` succeeds (an invalid pattern makes the JS code
   throw, embedded as `Except.error ()`);
2. a hand-compiled executable semantics of the fixed template, faithful
   whenever the interpolated fragment denotes itself literally (no regex
   metacharacters); theorems that characterise matching carry that
   hypothesis explicitly (`safeFragChar` / `wordChar`).

Case-insensitive (`i` flag) matching is modelled by ASCII case folding
(`lc`), which agrees with the JS canonicalisation on the ASCII range; the
word-character class `\w` and the boundary assertion `\b` are ASCII-only
in JS and are modelled exactly.
-/

set_option maxRecDepth 8192

namespace MediaReliability

/-! ## Characters: case folding, word characters, whitespace -/

/-- ASCII lowercasing on code points, the model of the canonicalisation
performed by the regex `i` flag (exact on ASCII, where all matching data
lives after `normalizeText`). -/
def lcNat (n : Nat) : Nat :=
  if 65 ≤ n ∧ n ≤ 90 then n + 32 else n

/-- ASCII lowercasing of a character. -/
def lc (c : Char) : Char :=
  if 65 ≤ c.toNat ∧ c.toNat ≤ 90 then Char.ofNat (c.toNat + 32) else c

/-- Lowercase a list of characters. -/
def lcL (l : List Char) : List Char := l.map lc

/-- JS regex word character `\w`, i.e. `[A-Za-z0-9_]` (ASCII only). -/
def wordChar (c : Char) : Bool :=
  (48 ≤ c.toNat && c.toNat ≤ 57) ||
  (65 ≤ c.toNat && c.toNat ≤ 90) ||
  (97 ≤ c.toNat && c.toNat ≤ 122) ||
  c.toNat == 95

/-- JS regex whitespace class `\s`. -/
def jsSpace (c : Char) : Bool :=
  c = ' ' || c = '\t' || c = '\n' || c.toNat == 11 || c.toNat == 12 ||
  c = '\r' || c.toNat == 160 || c.toNat == 5760 ||
  (8192 ≤ c.toNat && c.toNat ≤ 8202) ||
  c.toNat == 8232 || c.toNat == 8233 || c.toNat == 8239 ||
  c.toNat == 8287 || c.toNat == 12288 || c.toNat == 65279

/-- Characters that stand for themselves when interpolated into a regex
pattern: everything except the JS regex metacharacters.  A fragment made
of such characters compiles and matches literally. -/
def safeFragChar (c : Char) : Bool :=
  !(c ∈ ['\\', '(', ')', '[', ']', '{', '}', '|', '^', '$', '.', '*', '+', '?'])

theorem toNat_ofNat_of_valid {n : Nat} (h : n.isValidChar) :
    (Char.ofNat n).toNat = n := by
  rw [Char.ofNat, dif_pos h]
  rfl

theorem lc_toNat (c : Char) : (lc c).toNat = lcNat c.toNat := by
  unfold lc lcNat
  by_cases h : 65 ≤ c.toNat ∧ c.toNat ≤ 90
  · rw [if_pos h, if_pos h]
    exact toNat_ofNat_of_valid (Or.inl (by omega))
  · rw [if_neg h, if_neg h]

theorem wordChar_eq_of_toNat (c d : Char) (h : c.toNat = d.toNat) :
    wordChar c = wordChar d := by
  unfold wordChar; rw [h]

/-- Case folding preserves word-character-ness. -/
theorem wordChar_lc (c : Char) : wordChar (lc c) = wordChar c := by
  have h := lc_toNat c
  unfold wordChar lcNat at *
  by_cases hu : 65 ≤ c.toNat ∧ c.toNat ≤ 90
  · rw [h, if_pos hu]
    have h1 : (48 ≤ c.toNat + 32 && c.toNat + 32 ≤ 57) = false := by
      simp; omega
    have h2 : (65 ≤ c.toNat + 32 && c.toNat + 32 ≤ 90) = false := by
      simp; omega
    have h3 : (97 ≤ c.toNat + 32 && c.toNat + 32 ≤ 122) = true := by
      simp; omega
    have h4 : (65 ≤ c.toNat && c.toNat ≤ 90) = true := by
      simp; omega
    simp [h1, h2, h3, h4]
  · rw [h, if_neg hu]

/-- Characters that fold to the same character have the same
word-character-ness. -/
theorem wordChar_of_lc_eq {c d : Char} (h : lc c = lc d) :
    wordChar c = wordChar d := by
  rw [← wordChar_lc c, ← wordChar_lc d, h]

theorem wordChar_safeFragChar {c : Char} (h : wordChar c = true) :
    safeFragChar c = true := by
  unfold wordChar at h
  unfold safeFragChar
  simp only [List.mem_cons, List.not_mem_nil, or_false, Bool.not_eq_true',
    decide_eq_false_iff_not]
  simp only [Bool.or_eq_true, Bool.and_eq_true, decide_eq_true_eq,
    beq_iff_eq] at h
  intro hc
  have : c.toNat = 92 ∨ c.toNat = 40 ∨ c.toNat = 41 ∨ c.toNat = 91 ∨
      c.toNat = 93 ∨ c.toNat = 123 ∨ c.toNat = 125 ∨ c.toNat = 124 ∨
      c.toNat = 94 ∨ c.toNat = 36 ∨ c.toNat = 46 ∨ c.toNat = 42 ∨
      c.toNat = 43 ∨ c.toNat = 63 := by
    rcases hc with h' | h' | h' | h' | h' | h' | h' | h' | h' | h' | h' | h' | h' | h' <;>
      subst h' <;> simp [Char.toNat]
  omega

/-! ## Matching primitives

Regex `.test` performs an unanchored search: the pattern is tried at
every position of the text (`search`); literal fragments are compared
case-folded (`litMP`), and the `\b` assertion inspects the character just
before the current position, so the scanner threads it through
(`Option Char`).  -/

/-- Match the literal fragment `p` (case-folded) at the front of `s`,
threading the previously consumed character; on success return the last
consumed character together with the rest of the text. -/
def litMP : List Char → Option Char → List Char → Option (Option Char × List Char)
  | [], prev, s => some (prev, s)
  | c :: p, _prev, s =>
    match s with
    | [] => none
    | d :: s' => if lc c = lc d then litMP p (some d) s' else none

/-- Match the literal fragment `p` (case-folded) as a prefix of `s`,
returning the leftover text. -/
def prefCI (p s : List Char) : Option (List Char) :=
  match litMP p none s with
  | some r => some r.2
  | none => none

/-- Last character of `u`, falling back to the character before `u`. -/
def lastP (prev : Option Char) (u : List Char) : Option Char :=
  match u.getLast? with
  | some c => some c
  | none => prev

/-- Word-character-ness of an optional character; the edge of the text
counts as a non-word character. -/
def isW : Option Char → Bool
  | some c => wordChar c
  | none => false

/-- The JS `\b` assertion between two adjacent positions. -/
def wordB (a b : Option Char) : Bool := isW a != isW b

/-- True when an optional character is absent or is a non-word
character; with a word-character on the other side this is exactly
`\b`. -/
def noWordEdge : Option Char → Bool
  | some c => !wordChar c
  | none => true

/-- Unanchored scan: try `f` at every position of the text, threading the
character before the position. -/
def searchAux (f : Option Char → List Char → Bool) : Option Char → List Char → Bool
  | prev, s =>
    f prev s ||
      match s with
      | [] => false
      | c :: s' => searchAux f (some c) s'

/-- Search the whole text, starting before its first character. -/
def search (f : Option Char → List Char → Bool) (t : List Char) : Bool :=
  searchAux f none t

theorem lastP_append (prev : Option Char) (u v : List Char) :
    lastP prev (u ++ v) = lastP (lastP prev u) v := by
  simp only [lastP, List.getLast?_append]
  cases v.getLast? <;> cases u.getLast? <;> rfl

theorem lastP_cons (prev : Option Char) (c : Char) (u : List Char) :
    lastP prev (c :: u) = lastP (some c) u := by
  have h := lastP_append prev [c] u
  simpa [lastP] using h

theorem searchAux_iff (f : Option Char → List Char → Bool)
    (prev : Option Char) (s : List Char) :
    searchAux f prev s = true ↔ ∃ u v, s = u ++ v ∧ f (lastP prev u) v = true := by
  induction s generalizing prev with
  | nil =>
    rw [searchAux]
    simp only [Bool.or_false]
    constructor
    · intro h
      exact ⟨[], [], rfl, by simpa [lastP] using h⟩
    · rintro ⟨u, v, huv, hf⟩
      obtain ⟨hu, hv⟩ := List.append_eq_nil.mp huv.symm
      subst hu; subst hv
      simpa [lastP] using hf
  | cons c s' ih =>
    rw [searchAux]
    simp only [Bool.or_eq_true]
    constructor
    · rintro (h | h)
      · exact ⟨[], c :: s', rfl, by simpa [lastP] using h⟩
      · obtain ⟨u, v, huv, hf⟩ := (ih (some c)).mp h
        refine ⟨c :: u, v, by simp [huv], ?_⟩
        rwa [lastP_cons]
    · rintro ⟨u, v, huv, hf⟩
      cases u with
      | nil =>
        left
        simp only [List.nil_append] at huv
        subst huv
        simpa [lastP] using hf
      | cons x u' =>
        right
        simp only [List.cons_append] at huv
        injection huv with hx hs
        subst hx
        refine (ih (some c)).mpr ⟨u', v, hs, ?_⟩
        rwa [lastP_cons] at hf

theorem search_iff (f : Option Char → List Char → Bool) (t : List Char) :
    search f t = true ↔ ∃ u v, t = u ++ v ∧ f (lastP none u) v = true :=
  searchAux_iff f none t

theorem litMP_iff (p : List Char) (prev : Option Char) (s : List Char)
    (pv : Option Char) (r : List Char) :
    litMP p prev s = some (pv, r) ↔
      ∃ w, s = w ++ r ∧ w.length = p.length ∧ lcL w = lcL p ∧ pv = lastP prev w := by
  induction p generalizing prev s with
  | nil =>
    rw [litMP]
    constructor
    · intro h
      have h' : prev = pv ∧ s = r := by simpa using h
      refine ⟨[], by simp [h'.2], rfl, rfl, ?_⟩
      simp [lastP, h'.1]
    · rintro ⟨w, hw, hlen, -, hpv⟩
      have hwnil : w = [] := List.length_eq_zero.mp (by simpa using hlen)
      subst hwnil
      simp only [List.nil_append] at hw
      simp [hw, hpv, lastP]
  | cons c p' ih =>
    cases s with
    | nil =>
      rw [litMP]
      simp only [reduceCtorEq, false_iff]
      rintro ⟨w, hw, hlen, -, -⟩
      have hwnil : w = [] := by
        have hl := congrArg List.length hw
        simp only [List.length_nil, List.length_append] at hl
        exact List.length_eq_zero.mp (by omega)
      subst hwnil
      simp at hlen
    | cons d s' =>
      rw [litMP]
      by_cases hcd : lc c = lc d
      · rw [if_pos hcd, ih]
        constructor
        · rintro ⟨w', hw', hlen', hlc', hpv'⟩
          refine ⟨d :: w', by simp [hw'], by simp [hlen'], ?_, ?_⟩
          · simp only [lcL, List.map_cons] at hlc' ⊢
            rw [← hcd, hlc']
          · rw [hpv', lastP_cons]
        · rintro ⟨w, hw, hlen, hlc, hpv⟩
          cases w with
          | nil => simp at hlen
          | cons e w' =>
            simp only [List.cons_append] at hw
            injection hw with he hs
            subst he
            simp only [lcL, List.map_cons, List.cons.injEq] at hlc
            refine ⟨w', hs, by simpa using hlen, by simpa [lcL] using hlc.2, ?_⟩
            rw [hpv, lastP_cons]
      · rw [if_neg hcd]
        simp only [reduceCtorEq, false_iff]
        rintro ⟨w, hw, hlen, hlc, -⟩
        cases w with
        | nil => simp at hlen
        | cons e w' =>
          simp only [List.cons_append] at hw
          injection hw with he hs
          subst he
          simp only [lcL, List.map_cons, List.cons.injEq] at hlc
          exact hcd hlc.1.symm

/-- Matching a fragment against itself (up to case) always succeeds. -/
theorem litMP_self (p : List Char) (prev : Option Char) (r : List Char) :
    litMP p prev (p ++ r) = some (lastP prev p, r) := by
  rw [litMP_iff]
  exact ⟨p, rfl, rfl, rfl, rfl⟩

theorem prefCI_self (p r : List Char) : prefCI p (p ++ r) = some r := by
  unfold prefCI
  rw [litMP_self]

theorem prefCI_isSome_iff (p s : List Char) :
    (prefCI p s).isSome = true ↔ ∃ w r, s = w ++ r ∧ lcL w = lcL p := by
  unfold prefCI
  cases h : litMP p none s with
  | none =>
    simp only [Option.isSome_none, Bool.false_eq_true, false_iff]
    rintro ⟨w, r, hs, hlc⟩
    have hlen : w.length = p.length := by
      have hl := congrArg List.length hlc
      simpa [lcL] using hl
    have hsome := (litMP_iff p none s (lastP none w) r).mpr ⟨w, hs, hlen, hlc, rfl⟩
    rw [h] at hsome
    exact absurd hsome (by simp)
  | some pr =>
    simp only [Option.isSome_some, true_iff]
    obtain ⟨pv, r⟩ := pr
    obtain ⟨w, hs, hlen, hlc, -⟩ := (litMP_iff p none s pv r).mp h
    exact ⟨w, r, hs, hlc⟩

/-- Case folding a list does not change which of its members are word
characters. -/
theorem all_wordChar_lcL (l : List Char) :
    (lcL l).all wordChar = l.all wordChar := by
  induction l with
  | nil => rfl
  | cons c cs ih =>
    rw [show lcL (c :: cs) = lc c :: lcL cs from rfl, List.all_cons, List.all_cons,
      wordChar_lc, ih]

/-- Members of a case-folded copy of an all-word-character fragment are
word characters. -/
theorem all_wordChar_of_lcL {w n : List Char} (hlc : lcL w = lcL n)
    (hn : n.all wordChar = true) : w.all wordChar = true := by
  rw [← all_wordChar_lcL w, hlc, all_wordChar_lcL n]
  exact hn

/-! ## Regex pattern construction and syntax checking

`matcher.ts` interpolates registry data into template-literal regex
patterns and hands them to `new RegExp`, which throws a `SyntaxError` on
an ill-formed pattern.  `regexSyntaxOk` models that success/failure: it
scans the pattern tracking escapes, character classes and group nesting,
and rejects exactly the failure modes reachable from the templates
(unbalanced groups, unterminated classes, trailing backslash).  -/

/-- State of the pattern scanner. -/
structure RSt where
  inClass : Bool
  esc : Bool
  depth : Nat
  bad : Bool
deriving DecidableEq

/-- One step of the pattern scanner. -/
def rstep (st : RSt) (c : Char) : RSt :=
  if st.bad then st
  else if st.esc then { st with esc := false }
  else if c = '\\' then { st with esc := true }
  else if st.inClass then (if c = ']' then { st with inClass := false } else st)
  else if c = '[' then { st with inClass := true }
  else if c = '(' then { st with depth := st.depth + 1 }
  else if c = ')' then
    (match st.depth with
     | 0 => { st with bad := true }
     | d + 1 => { st with depth := d })
  else st

/-- Model of `new RegExp(pat)` succeeding. -/
def regexSyntaxOk (pat : String) : Bool :=
  let st := pat.data.foldl rstep ⟨false, false, 0, false⟩
  !st.bad && !st.inClass && !st.esc && st.depth == 0

/-- Scanning a run of literal-safe characters leaves the scanner state
unchanged. -/
theorem foldl_rstep_safe (l : List Char) (d : Nat)
    (h : l.all safeFragChar = true) :
    l.foldl rstep ⟨false, false, d, false⟩ = ⟨false, false, d, false⟩ := by
  induction l with
  | nil => rfl
  | cons c cs ih =>
    rw [List.all_cons, Bool.and_eq_true] at h
    have hstep : rstep ⟨false, false, d, false⟩ c = ⟨false, false, d, false⟩ := by
      have hc := h.1
      unfold safeFragChar at hc
      simp only [List.mem_cons, List.not_mem_nil, or_false,
        Bool.not_eq_true', decide_eq_false_iff_not] at hc
      push_neg at hc
      simp [rstep, hc.1, hc.2.1, hc.2.2.1, hc.2.2.2.1]
    rw [List.foldl_cons, hstep]
    exact ih h.2

/-- The escaped-dots encoding used for domain fragments: every `.` in the
registry domain is replaced by `\.` (`domain.replace(/\./g, '\\.')`). -/
def escDots (l : List Char) : List Char :=
  l.flatMap (fun c => if c = '.' then ['\\', '.'] else [c])

/-- Characters allowed in a registry domain for the hand-compiled
semantics to be exact: regex-literal characters plus the dot, which the
source escapes before interpolation. -/
def domSafeChar (c : Char) : Bool := safeFragChar c || c = '.'

/-- Scanning the escaped-dots encoding of a domain-safe fragment leaves
the scanner state unchanged. -/
theorem foldl_rstep_escDots (l : List Char) (d : Nat)
    (h : l.all domSafeChar = true) :
    (escDots l).foldl rstep ⟨false, false, d, false⟩ = ⟨false, false, d, false⟩ := by
  induction l with
  | nil => rfl
  | cons c cs ih =>
    rw [List.all_cons, Bool.and_eq_true] at h
    rw [show escDots (c :: cs) =
        (if c = '.' then ['\\', '.'] else [c]) ++ escDots cs from
      List.flatMap_cons c cs _]
    by_cases hdot : c = '.'
    · rw [if_pos hdot, List.foldl_append]
      have h2 : (['\\', '.'].foldl rstep (⟨false, false, d, false⟩ : RSt)) =
          ⟨false, false, d, false⟩ := by
        simp [rstep]
      rw [h2]
      exact ih h.2
    · have hc : safeFragChar c = true := by
        have hd := h.1
        unfold domSafeChar at hd
        simp only [Bool.or_eq_true, decide_eq_true_eq] at hd
        rcases hd with h' | h'
        · exact h'
        · exact absurd h' hdot
      rw [if_neg hdot, List.foldl_append]
      have hone : [c].all safeFragChar = true := by simp [hc]
      rw [foldl_rstep_safe [c] d hone]
      exact ih h.2

/-! ### The pattern strings built by `matcher.ts`

Each definition is the cooked template-literal string of the source,
written with Lean escapes (`\\` is a single backslash character). -/

/-- Pattern of `isNameInTitle` for a common name:
`^NAME:|(\(|\[)NAME(\)|\])`. -/
def nameCommonPattern (n : String) : String :=
  "^" ++ n ++ ":|(\\(|\\[)" ++ n ++ "(\\)|\\])"

/-- Pattern of `isNameInTitle`/`isNameInBody` for an uncommon name:
`\bNAME\b`. -/
def nameWordPattern (n : String) : String :=
  "\\b" ++ n ++ "\\b"

/-- Pattern of `isTwitterInTitle` and `isTwitterInBody`:
`^@?HANDLE:|@HANDLE\b|(\(|\[)HANDLE(\)|\])`. -/
def twitterTextPattern (h : String) : String :=
  "^@?" ++ h ++ ":|@" ++ h ++ "\\b|(\\(|\\[)" ++ h ++ "(\\)|\\])"

/-- Pattern of `isTwitterInUrl`: `^\/HANDLE(\/|\s|$)` (the template
escapes the first slash). -/
def twitterUrlPattern (h : String) : String :=
  "^\\/" ++ h ++ "(\\/|\\s|$)"

/-- Pattern of `isTwitterInLinks`: `^/HANDLE(\/|\s|$)` (the template
writes `\/`, which the template literal cooks to a bare slash). -/
def twitterLinksPattern (h : String) : String :=
  "^/" ++ h ++ "(\\/|\\s|$)"

/-- Pattern of `isNameInBody` for a common name:
`NAME:|(\[|\()NAME(\]|\))` — note the missing `^` anchor compared to the
title pattern. -/
def nameBodyCommonPattern (n : String) : String :=
  n ++ ":|(\\[|\\()" ++ n ++ "(\\]|\\))"

/-- Pattern of `isDomainInUrl`/`isDomainInLinks`:
`^(.*\.)?DOMAIN$` with the domain's dots escaped. -/
def domainPattern (d : String) : String :=
  "^(.*\\.)?" ++ ⟨escDots d.data⟩ ++ "$"

/-- Initial scanner state. -/
def rst0 : RSt := ⟨false, false, 0, false⟩

theorem foldl_rstep_safe0 (l : List Char) (h : l.all safeFragChar = true) :
    l.foldl rstep rst0 = rst0 :=
  foldl_rstep_safe l 0 h

theorem foldl_rstep_escDots0 (l : List Char) (h : l.all domSafeChar = true) :
    (escDots l).foldl rstep rst0 = rst0 :=
  foldl_rstep_escDots l 0 h

theorem regexSyntaxOk_eq (pat : String) :
    regexSyntaxOk pat =
      (let st := pat.data.foldl rstep rst0
       !st.bad && !st.inClass && !st.esc && st.depth == 0) := rfl

theorem regexSyntaxOk_nameCommonPattern (n : String)
    (h : n.data.all safeFragChar = true) :
    regexSyntaxOk (nameCommonPattern n) = true := by
  rw [regexSyntaxOk_eq]
  unfold nameCommonPattern
  simp only [String.data_append]
  rw [List.foldl_append, List.foldl_append, List.foldl_append, List.foldl_append]
  rw [show ("^".data.foldl rstep rst0) = rst0 from by decide]
  rw [foldl_rstep_safe0 n.data h]
  rw [show ((":|(\\(|\\[)".data.foldl rstep rst0) : RSt) = rst0 from by decide]
  rw [foldl_rstep_safe0 n.data h]
  rw [show (("(\\)|\\])".data.foldl rstep rst0) : RSt) = rst0 from by decide]
  decide

theorem regexSyntaxOk_nameWordPattern (n : String)
    (h : n.data.all safeFragChar = true) :
    regexSyntaxOk (nameWordPattern n) = true := by
  rw [regexSyntaxOk_eq]
  unfold nameWordPattern
  simp only [String.data_append]
  rw [List.foldl_append, List.foldl_append]
  rw [show ("\\b".data.foldl rstep rst0) = rst0 from by decide]
  rw [foldl_rstep_safe0 n.data h]
  rw [show (("\\b".data.foldl rstep rst0) : RSt) = rst0 from by decide]
  decide

theorem regexSyntaxOk_twitterTextPattern (hdl : String)
    (h : hdl.data.all safeFragChar = true) :
    regexSyntaxOk (twitterTextPattern hdl) = true := by
  rw [regexSyntaxOk_eq]
  unfold twitterTextPattern
  simp only [String.data_append]
  rw [List.foldl_append, List.foldl_append, List.foldl_append, List.foldl_append,
    List.foldl_append, List.foldl_append]
  rw [show ("^@?".data.foldl rstep rst0) = rst0 from by decide]
  rw [foldl_rstep_safe0 hdl.data h]
  rw [show ((":|@".data.foldl rstep rst0) : RSt) = rst0 from by decide]
  rw [foldl_rstep_safe0 hdl.data h]
  rw [show (("\\b|(\\(|\\[)".data.foldl rstep rst0) : RSt) = rst0 from by decide]
  rw [foldl_rstep_safe0 hdl.data h]
  rw [show (("(\\)|\\])".data.foldl rstep rst0) : RSt) = rst0 from by decide]
  decide

theorem regexSyntaxOk_twitterUrlPattern (hdl : String)
    (h : hdl.data.all safeFragChar = true) :
    regexSyntaxOk (twitterUrlPattern hdl) = true := by
  rw [regexSyntaxOk_eq]
  unfold twitterUrlPattern
  simp only [String.data_append]
  rw [List.foldl_append, List.foldl_append]
  rw [show ("^\\/".data.foldl rstep rst0) = rst0 from by decide]
  rw [foldl_rstep_safe0 hdl.data h]
  rw [show (("(\\/|\\s|$)".data.foldl rstep rst0) : RSt) = rst0 from by decide]
  decide

theorem regexSyntaxOk_twitterLinksPattern (hdl : String)
    (h : hdl.data.all safeFragChar = true) :
    regexSyntaxOk (twitterLinksPattern hdl) = true := by
  rw [regexSyntaxOk_eq]
  unfold twitterLinksPattern
  simp only [String.data_append]
  rw [List.foldl_append, List.foldl_append]
  rw [show ("^/".data.foldl rstep rst0) = rst0 from by decide]
  rw [foldl_rstep_safe0 hdl.data h]
  rw [show (("(\\/|\\s|$)".data.foldl rstep rst0) : RSt) = rst0 from by decide]
  decide

/-- The two slash-template patterns (single URL vs links) are accepted in
exactly the same circumstances. -/
theorem regexSyntaxOk_twitterUrl_eq_links (hdl : String) :
    regexSyntaxOk (twitterUrlPattern hdl) = regexSyntaxOk (twitterLinksPattern hdl) := by
  rw [regexSyntaxOk_eq, regexSyntaxOk_eq]
  unfold twitterUrlPattern twitterLinksPattern
  simp only [String.data_append]
  rw [List.foldl_append, List.foldl_append, List.foldl_append, List.foldl_append]
  rw [show ("^\\/".data.foldl rstep rst0) = rst0 from by decide]
  rw [show ("^/".data.foldl rstep rst0) = rst0 from by decide]

theorem regexSyntaxOk_nameBodyCommonPattern (n : String)
    (h : n.data.all safeFragChar = true) :
    regexSyntaxOk (nameBodyCommonPattern n) = true := by
  rw [regexSyntaxOk_eq]
  unfold nameBodyCommonPattern
  simp only [String.data_append]
  rw [List.foldl_append, List.foldl_append, List.foldl_append]
  rw [foldl_rstep_safe0 n.data h]
  rw [show ((":|(\\[|\\()".data.foldl rstep rst0) : RSt) = rst0 from by decide]
  rw [foldl_rstep_safe0 n.data h]
  rw [show (("(\\]|\\))".data.foldl rstep rst0) : RSt) = rst0 from by decide]
  decide

theorem regexSyntaxOk_domainPattern (d : String)
    (h : d.data.all domSafeChar = true) :
    regexSyntaxOk (domainPattern d) = true := by
  rw [regexSyntaxOk_eq]
  unfold domainPattern
  simp only [String.data_append]
  rw [List.foldl_append, List.foldl_append]
  rw [show ("^(.*\\.)?".data.foldl rstep rst0) = rst0 from by decide]
  rw [foldl_rstep_escDots0 d.data h]
  rw [show (("$".data.foldl rstep rst0) : RSt) = rst0 from by decide]
  decide

/-! ## Data model

Mirrors `schema.ts` (a validated `Source`), the matcher's view of a URL
(hostname and pathname only — the two fields the matcher reads), and the
`PostData` produced by `processPost` together with the part of
`AppSettings` the matcher consumes. -/

/-- Closed category set of `sourceSchema.type`. -/
inductive SourceType where
  | journalist
  | media
  | aggregator
deriving DecidableEq

/-- A registry entry after `sourceSchema` validation and its transform
(`nameNormalized`, `twitterNormalized` are the derived fields).  `tier`
is modelled as an integer (`z.number().nullable()`; the registry uses
integral tiers). -/
structure Source where
  id : String
  name : String
  nameIsCommon : Bool
  type : SourceType
  tier : Option Int
  organization : Option String
  twitter : Option String
  domains : Option (List String)
  nameNormalized : String
  twitterNormalized : Option String
deriving DecidableEq

/-- The matcher's view of a WHATWG `URL` object. -/
structure URLm where
  hostname : String
  pathname : String
deriving DecidableEq

/-- Result of `processPost` (`helpers.ts`). -/
structure PostData where
  id : String
  subredditName : String
  titleNormalized : String
  bodyNormalized : Option String
  url : Option URLm
  links : Option (List URLm)
deriving DecidableEq

/-- The app settings consumed by the matcher (`settingsSchema`). -/
structure AppSettings where
  sources : List Source
  flairTemplateId : String
  flairCssClass : String
  commentFooter : String
  analyzePostBody : Bool
  ignoredUsers : List String
  errorReportSubredditName : String
deriving DecidableEq

/-! ## Hand-compiled semantics of the template regexes -/

/-- Semantics of the alternative `(\(|\[)FRAG(\)|\])` at one position:
an opening bracket, the fragment (case-folded), a closing bracket.  The
regex accepts mixed pairs such as `(frag]`. -/
def brackAt (n : List Char) (_prev : Option Char) (s : List Char) : Bool :=
  match s with
  | [] => false
  | b :: s1 =>
    (b = '(' || b = '[') &&
      (match litMP n (some b) s1 with
       | some r =>
         (match r.2 with
          | b2 :: _ => b2 = ')' || b2 = ']'
          | [] => false)
       | none => false)

/-- Semantics of `\bFRAG\b` at one position. -/
def wordAt (n : List Char) (prev : Option Char) (s : List Char) : Bool :=
  wordB prev s.head? &&
    (match litMP n prev s with
     | some r => wordB r.1 r.2.head?
     | none => false)

/-- Semantics of the alternative `@FRAG\b` at one position. -/
def atHandleAt (n : List Char) (_prev : Option Char) (s : List Char) : Bool :=
  match s with
  | [] => false
  | b :: s1 =>
    (b = '@') &&
      (match litMP n (some b) s1 with
       | some r => wordB r.1 r.2.head?
       | none => false)

/-- Semantics of the unanchored alternative `FRAG:` at one position. -/
def colonAt (n : List Char) (_prev : Option Char) (s : List Char) : Bool :=
  (prefCI (n ++ [':']) s).isSome

/-- Test of `^NAME:|(\(|\[)NAME(\)|\])` (common-name title pattern). -/
def nameCommonTest (n t : List Char) : Bool :=
  (prefCI (n ++ [':']) t).isSome || search (brackAt n) t

/-- Test of `\bNAME\b` (uncommon-name pattern, title and body alike). -/
def nameWordTest (n t : List Char) : Bool :=
  search (wordAt n) t

/-- Test of `^@?HANDLE:|@HANDLE\b|(\(|\[)HANDLE(\)|\])` (handle pattern,
title and body alike). -/
def twitterTextTest (h t : List Char) : Bool :=
  (prefCI (h ++ [':']) t).isSome || (prefCI ('@' :: h ++ [':']) t).isSome ||
    search (atHandleAt h) t || search (brackAt h) t

/-- Test of `^\/HANDLE(\/|\s|$)` against a URL pathname. -/
def twitterPathTest (h p : List Char) : Bool :=
  match prefCI ('/' :: h) p with
  | some [] => true
  | some (c :: _) => c = '/' || jsSpace c
  | none => false

/-- Test of `NAME:|(\[|\()NAME(\]|\))` (common-name body pattern; the
colon alternative is unanchored). -/
def nameBodyCommonTest (n t : List Char) : Bool :=
  search (colonAt n) t || search (brackAt n) t

/-- Test of `^(.*\.)?DOMAIN$` against a hostname: the hostname is the
domain itself, or ends in `.DOMAIN` with the leading part free of
newlines (`.` does not match a newline). -/
def domSub (d h : List Char) : Bool :=
  (h == '.' :: d) ||
    (match h with
     | [] => false
     | c :: h' => c ≠ '\n' && domSub d h')

/-- Full domain test: hostname equals the domain or is a subdomain. -/
def domMatch (d h : List Char) : Bool :=
  (h == d) || domSub d h

/-! ## The matcher predicates (`matcher.ts`)

Each predicate embeds the corresponding TypeScript function.  A thrown
`SyntaxError` from `new RegExp` is `Except.error ()`; the regex is only
constructed on the code paths where the source constructs it. -/

deriving instance DecidableEq for Except

/-- JS truthiness of an optional string (`null` and `""` are falsy). -/
def truthy : Option String → Bool
  | some s => !(s == "")
  | none => false

/-- Short-circuiting `Array.prototype.some` with an effectful predicate:
later elements are not inspected after a hit, and an exception thrown
while inspecting an element propagates. -/
def anyME : List α → (α → Except Unit Bool) → Except Unit Bool
  | [], _ => .ok false
  | a :: l, f => do
    let b ← f a
    if b then pure true else anyME l f

/-- Embedding of `isNameInTitle`:
if `source.nameIsCommon`, test
`` new RegExp(`^${n}:|(\\(|\\[)${n}(\\)|\\])`, 'i') ``,
otherwise test `` new RegExp(`\\b${n}\\b`, 'i') ``
against the title. -/
def isNameInTitle (titleNormalized : String) (source : Source) : Except Unit Bool :=
  if source.nameIsCommon then
    if regexSyntaxOk (nameCommonPattern source.nameNormalized) then
      .ok (nameCommonTest source.nameNormalized.data titleNormalized.data)
    else .error ()
  else
    if regexSyntaxOk (nameWordPattern source.nameNormalized) then
      .ok (nameWordTest source.nameNormalized.data titleNormalized.data)
    else .error ()

/-- Embedding of `isTwitterInTitle`: `false` without a truthy handle,
otherwise test
`` new RegExp(`^@?${h}:|@${h}\\b|(\\(|\\[)${h}(\\)|\\])`, 'i') ``
against the title. -/
def isTwitterInTitle (titleNormalized : String) (source : Source) : Except Unit Bool :=
  if !truthy source.twitterNormalized then .ok false
  else
    let h := source.twitterNormalized.getD ""
    if regexSyntaxOk (twitterTextPattern h) then
      .ok (twitterTextTest h.data titleNormalized.data)
    else .error ()

/-- Embedding of `isTwitterInUrl`: `false` without a truthy handle;
only when the lowercased hostname is `x.com` or `twitter.com` is
`` new RegExp(`^\/${h}(\\/|\\s|$)`, 'i') `` built and tested against the
pathname. -/
def isTwitterInUrl (url : URLm) (source : Source) : Except Unit Bool :=
  if !truthy source.twitterNormalized then .ok false
  else
    let h := source.twitterNormalized.getD ""
    if lcL url.hostname.data = "x.com".data ∨ lcL url.hostname.data = "twitter.com".data then
      if regexSyntaxOk (twitterUrlPattern h) then
        .ok (twitterPathTest h.data url.pathname.data)
      else .error ()
    else .ok false

/-- Embedding of `isDomainInUrl`: `source.domains?.some(domain => new
RegExp(`^(.*\\.)?${domain.replace(/\./g, '\\.')}$`).test(url.hostname))`
— the regex is built lazily per domain, case-sensitively, with the
domain's dots escaped. -/
def isDomainInUrl (url : URLm) (source : Source) : Except Unit Bool :=
  match source.domains with
  | none => .ok false
  | some ds =>
    anyME ds (fun d =>
      if regexSyntaxOk (domainPattern d) then
        .ok (domMatch d.data url.hostname.data)
      else .error ())

/-- Embedding of `isTwitterInLinks`: `false` without a truthy handle;
otherwise `` new RegExp(`^\/${h}(\\/|\\s|$)`, 'i') `` (built once, before
any URL is inspected — note: no hostname restriction) is tested against
every pathname. -/
def isTwitterInLinks (urls : List URLm) (source : Source) : Except Unit Bool :=
  if !truthy source.twitterNormalized then .ok false
  else
    let h := source.twitterNormalized.getD ""
    if regexSyntaxOk (twitterLinksPattern h) then
      .ok (urls.any (fun u => twitterPathTest h.data u.pathname.data))
    else .error ()

/-- Embedding of `isDomainInLinks`: `false` for a missing or empty
domain list, otherwise the per-domain regex of `isDomainInUrl` applied
to every URL in the list. -/
def isDomainInLinks (urls : List URLm) (source : Source) : Except Unit Bool :=
  match source.domains with
  | none => .ok false
  | some ds =>
    if ds.length < 1 then .ok false
    else
      anyME urls (fun u =>
        anyME ds (fun d =>
          if regexSyntaxOk (domainPattern d) then
            .ok (domMatch d.data u.hostname.data)
          else .error ()))

/-- Embedding of `isNameInBody`:
if `source.nameIsCommon`, test
`` new RegExp(`${n}:|(\\[|\\()${n}(\\]|\\))`, 'gi') `` (colon alternative
unanchored), otherwise `` new RegExp(`\\b${n}\\b`, 'gi') ``.  The `g`
flag is irrelevant to a single `.test` on a fresh regex. -/
def isNameInBody (bodyNormalized : String) (source : Source) : Except Unit Bool :=
  if source.nameIsCommon then
    if regexSyntaxOk (nameBodyCommonPattern source.nameNormalized) then
      .ok (nameBodyCommonTest source.nameNormalized.data bodyNormalized.data)
    else .error ()
  else
    if regexSyntaxOk (nameWordPattern source.nameNormalized) then
      .ok (nameWordTest source.nameNormalized.data bodyNormalized.data)
    else .error ()

/-- Embedding of `isTwitterInBody`: the same pattern as
`isTwitterInTitle` with the `gi` flags. -/
def isTwitterInBody (bodyNormalized : String) (source : Source) : Except Unit Bool :=
  if !truthy source.twitterNormalized then .ok false
  else
    let h := source.twitterNormalized.getD ""
    if regexSyntaxOk (twitterTextPattern h) then
      .ok (twitterTextTest h.data bodyNormalized.data)
    else .error ()

/-! ## Aggregation (`findSourcesInPost`)

The JS `Map<string, Source>` keeps first-insertion order and `set`
replaces the value of an existing key in place; it is modelled as an
association list.  `Array.prototype.sort` is stable (ES2019), with the
comparator `(a.tier ?? 6) - (b.tier ?? 6)`; it is modelled as a stable
insertion sort on that key. -/

/-- `Map.set` on the association-list model. -/
def mapSet (l : List (String × Source)) (k : String) (v : Source) :
    List (String × Source) :=
  if l.any (fun e => e.1 == k) then
    l.map (fun e => if e.1 == k then (k, v) else e)
  else l ++ [(k, v)]

/-- Common shape of the four `findMatchesIn*` loops of `matcher.ts`:
for each source in order, `list.set(source.id, source)` when the first
predicate accepts, otherwise when the second does (the second predicate
is only evaluated when the first returns false). -/
def findMatchesWith (p1 p2 : Source → Except Unit Bool) :
    List Source → List (String × Source) → Except Unit (List (String × Source))
  | [], l => .ok l
  | src :: rest, l => do
    let b ← p1 src
    if b then findMatchesWith p1 p2 rest (mapSet l src.id src)
    else
      let b2 ← p2 src
      if b2 then findMatchesWith p1 p2 rest (mapSet l src.id src)
      else findMatchesWith p1 p2 rest l

/-- Embedding of `findMatchesInTitle`: name predicate first, handle
predicate only if the name predicate returned false. -/
def findMatchesInTitle (titleNormalized : String) (sources : List Source)
    (l : List (String × Source)) : Except Unit (List (String × Source)) :=
  findMatchesWith (isNameInTitle titleNormalized) (isTwitterInTitle titleNormalized)
    sources l

/-- Embedding of `findMatchesInUrl`: handle predicate first, then
domain predicate. -/
def findMatchesInUrl (url : URLm) (sources : List Source)
    (l : List (String × Source)) : Except Unit (List (String × Source)) :=
  findMatchesWith (isTwitterInUrl url) (isDomainInUrl url) sources l

/-- Embedding of `findMatchesInLinks`. -/
def findMatchesInLinks (urls : List URLm) (sources : List Source)
    (l : List (String × Source)) : Except Unit (List (String × Source)) :=
  findMatchesWith (isTwitterInLinks urls) (isDomainInLinks urls) sources l

/-- Embedding of `findMatchesInBody`. -/
def findMatchesInBody (bodyNormalized : String) (sources : List Source)
    (l : List (String × Source)) : Except Unit (List (String × Source)) :=
  findMatchesWith (isNameInBody bodyNormalized) (isTwitterInBody bodyNormalized)
    sources l

/-- Sort key of the comparator `(a.tier ?? 6) - (b.tier ?? 6)`. -/
def tierKey (s : Source) : Int := s.tier.getD 6

/-- Stable insertion into a key-sorted list (new element goes before the
first strictly-greater-or-equal key it does not precede, i.e. after
nothing of smaller or equal key — preserving first-come order). -/
def insertByKey (x : Source) : List Source → List Source
  | [] => [x]
  | y :: ys => if tierKey x ≤ tierKey y then x :: y :: ys else y :: insertByKey x ys

/-- Stable sort by `tierKey`, the model of the ES2019 stable
`Array.prototype.sort` with the tier comparator. -/
def sortByTier : List Source → List Source
  | [] => []
  | x :: xs => insertByKey x (sortByTier xs)

/-- The `if (post.url)` guard of `findSourcesInPost`: the URL channel
only runs when a primary URL is present. -/
def urlStep (post : PostData) (settings : AppSettings)
    (l : List (String × Source)) : Except Unit (List (String × Source)) :=
  match post.url with
  | some u => findMatchesInUrl u settings.sources l
  | none => .ok l

/-- The `if (post.links)` guard of `findSourcesInPost`. -/
def linksStep (post : PostData) (settings : AppSettings)
    (l : List (String × Source)) : Except Unit (List (String × Source)) :=
  match post.links with
  | some us => findMatchesInLinks us settings.sources l
  | none => .ok l

/-- The `if (post.bodyNormalized && settings.analyzePostBody)` guard of
`findSourcesInPost` (an empty body string is falsy). -/
def bodyStep (post : PostData) (settings : AppSettings)
    (l : List (String × Source)) : Except Unit (List (String × Source)) :=
  if truthy post.bodyNormalized && settings.analyzePostBody then
    findMatchesInBody (post.bodyNormalized.getD "") settings.sources l
  else .ok l

/-- Embedding of `findSourcesInPost`: scan the four channels in order,
sort the collected map values by tier and return `null` for an empty
result. -/
def findSourcesInPost (post : PostData) (settings : AppSettings) :
    Except Unit (Option (List Source)) := do
  let l1 ← findMatchesInTitle post.titleNormalized settings.sources []
  let l2 ← urlStep post settings l1
  let l3 ← linksStep post settings l2
  let l4 ← bodyStep post settings l3
  let result := sortByTier (l4.map Prod.snd)
  pure (if result.length > 0 then some result else none)

/-! ## `helpers.ts` and `schema.ts` -/

/-- Unicode combining diacritical marks U+0300–U+036F, the range the
source strips after NFD decomposition. -/
def combining (c : Char) : Bool := 768 ≤ c.toNat && c.toNat ≤ 879

/-- Embedding of `normalizeText` (`helpers.ts`): NFD-decompose, strip
combining marks, lowercase.  NFD decomposition is modelled as the
identity (exact on text that is already decomposed, in particular on
ASCII); `toLowerCase` is modelled by ASCII folding. -/
def normalizeText (text : String) : String :=
  ⟨(text.data.filter (fun c => !combining c)).map lc⟩

/-- A `Source` as produced by `sourceSchema`'s transform: the derived
fields are consistent with the raw ones (`zod` places no constraint on
the characters of `name`/`twitter`/`domains`). -/
def schemaValid (s : Source) : Prop :=
  s.nameNormalized = normalizeText s.name ∧
  s.twitterNormalized =
    (if truthy s.twitter then some (normalizeText (s.twitter.getD "")) else none)

/-- The platform's own hostnames, excluded from `url` and `links` by
`processPost`/`getPostLinks`. -/
def selfHostnames : List String :=
  ["v.redd.it", "i.redd.it", "reddit.com", "www.reddit.com"]

/-- Modelled from the spec: the WHATWG `URL` constructor invoked by
`processPost` and `getPostLinks` is platform code, not part of `src/`.
Absolute http/https URLs are split into a hostname (ASCII-lowercased, as
the URL Standard prescribes — the constructor does NOT strip a leading
`www.`) and a pathname (up to any query or fragment, defaulting to `/`);
other inputs resolve against the base `https://www.reddit.com`. -/
def afterScheme (r : List Char) : URLm :=
  let host := r.takeWhile (fun c => c ≠ '/' && c ≠ '?' && c ≠ '#')
  let rest := r.drop host.length
  let path := rest.takeWhile (fun c => c ≠ '?' && c ≠ '#')
  { hostname := ⟨lcL host⟩
    pathname := if path.isEmpty then "/" else ⟨path⟩ }

/-- Parse a URL string; see the module note above `afterScheme`. -/
def parseURL (s : String) : URLm :=
  if "https://".data.isPrefixOf s.data then afterScheme (s.data.drop 8)
  else if "http://".data.isPrefixOf s.data then afterScheme (s.data.drop 7)
  else
    { hostname := "www.reddit.com"
      pathname := if s.data.head? == some '/' then s else ⟨'/' :: s.data⟩ }

def splitWsAux : List Char → List Char → List (List Char)
  | [], acc => [acc.reverse]
  | c :: rest, acc =>
    if jsSpace c then acc.reverse :: splitWsAux rest []
    else splitWsAux rest (c :: acc)

/-- Split a character list at whitespace. -/
def splitWs (l : List Char) : List (List Char) := splitWsAux l []

/-- Modelled from the spec: `linkify-it` (an external dependency, not
part of `src/`) extracts the URLs embedded in free text; modelled as the
whitespace-separated tokens that start with an http/https scheme. -/
def linkifyMatch (body : String) : List String :=
  ((splitWs body.data).filter
    (fun tok => "https://".data.isPrefixOf tok || "http://".data.isPrefixOf tok)).map
    (fun tok => ⟨tok⟩)

/-- Embedding of `getPostLinks` (`helpers.ts`): parse every extracted
link, drop the platform's own hostnames, return `null` for an empty
result. -/
def getPostLinks (body : String) : Option (List URLm) :=
  let links := (linkifyMatch body).filterMap (fun raw =>
    let url := parseURL raw
    if selfHostnames.contains url.hostname then none else some url)
  if links.length > 0 then some links else none

/-- Raw platform post consumed by `processPost`. -/
structure RedditPost where
  id : String
  subredditName : String
  title : String
  body : Option String
  url : String
deriving DecidableEq

/-- Embedding of `processPost` (`helpers.ts`): normalize title and body,
parse the primary URL and null it when self-referential (its hostname is
otherwise passed through unchanged), extract links from the body. -/
def processPost (post : RedditPost) : PostData :=
  let url := parseURL post.url
  { id := post.id
    subredditName := post.subredditName
    titleNormalized := normalizeText post.title
    bodyNormalized :=
      if truthy post.body then some (normalizeText (post.body.getD "")) else none
    url := if !selfHostnames.contains url.hostname then some url else none
    links := if truthy post.body then getPostLinks (post.body.getD "") else none }


/-! ## General lemmas about the embedding -/

/-- Binding a successful result is plain function application. -/
theorem ok_bind {ε α β : Type} (a : α) (f : α → Except ε β) :
    (Except.ok a >>= f) = f a := rfl

/-- A short-circuit `some` whose per-element action is pure computes
`List.any`. -/
theorem anyME_ok {α : Type} (l : List α) (f : α → Except Unit Bool) (g : α → Bool)
    (h : ∀ a ∈ l, f a = .ok (g a)) : anyME l f = .ok (l.any g) := by
  induction l with
  | nil => rfl
  | cons a l ih =>
    rw [anyME]
    rw [h a (List.mem_cons_self a l)]
    show (if g a then pure true else anyME l f) = _
    by_cases hga : g a = true
    · rw [if_pos hga]
      simp [hga, pure, Except.pure]
    · rw [if_neg hga]
      rw [ih (fun b hb => h b (List.mem_cons_of_mem a hb))]
      simp [Bool.not_eq_true] at hga
      simp [hga]

/-- Concrete registry fixtures used by witnesses and counterexamples. -/
def srcUncommon : Source :=
  ⟨"s-foo", "FooName", false, .journalist, none, none, none, none, "fooname", none⟩

def srcCommon : Source :=
  ⟨"s-foo", "FooName", true, .journalist, none, none, none, none, "fooname", none⟩

def srcHandle : Source :=
  ⟨"s-tw", "Tw", false, .journalist, none, none, some "foo_Twitter", none,
    "tw", some "foo_twitter"⟩

def srcDomain : Source :=
  ⟨"s-dom", "Dom", false, .journalist, some 2, none, none, some ["foo.com"],
    "dom", none⟩

def srcParen : Source :=
  ⟨"s-bad", "(", false, .journalist, none, none, none, none, "(", none⟩

def srcUntiered : Source :=
  ⟨"s-unt", "Alpha", false, .aggregator, none, none, none, none, "alpha", none⟩

def srcTier7 : Source :=
  ⟨"s-t7", "Beta", false, .media, some 7, none, none, none, "beta", none⟩

/-- A hit at the very first position makes the whole search succeed. -/
theorem search_of_head (f : Option Char → List Char → Bool) (t : List Char)
    (h : f none t = true) : search f t = true := by
  rw [search, searchAux.eq_def]
  simp [h]

/-! ## Claim C1 -/

/-- C1 counterexample: the claim says a link whose hostname is not one of
the two social-platform hostnames never produces a handle match, and that
`isTwitterInLinks` agrees with `isTwitterInUrl` link-wise.  The code
checks no hostname in `isTwitterInLinks`: the single link
`https://evil.com/foo_twitter` matches there while `isTwitterInUrl`
rejects the same URL. -/
theorem C1_counterexample :
    isTwitterInLinks [⟨"evil.com", "/foo_twitter"⟩] srcHandle = .ok true ∧
    isTwitterInUrl ⟨"evil.com", "/foo_twitter"⟩ srcHandle = .ok false := by
  decide

/-- C1 (amended): provided every URL in the list has a platform hostname
(lowercased `x.com` or `twitter.com`), `isTwitterInLinks` holds iff some
URL in the list satisfies `isTwitterInUrl`; without that restriction the
links predicate tests only the pathname. -/
theorem C1_links_iff_single (urls : List URLm) (src : Source)
    (hplat : ∀ u ∈ urls,
      lcL u.hostname.data = "x.com".data ∨ lcL u.hostname.data = "twitter.com".data) :
    isTwitterInLinks urls src = .ok true ↔
      ∃ u ∈ urls, isTwitterInUrl u src = .ok true := by
  by_cases htr : truthy src.twitterNormalized = true
  · have hok' := regexSyntaxOk_twitterUrl_eq_links (src.twitterNormalized.getD "")
    by_cases hok : regexSyntaxOk (twitterLinksPattern (src.twitterNormalized.getD "")) = true
    · have hlinks : isTwitterInLinks urls src =
          .ok (urls.any fun u =>
            twitterPathTest (src.twitterNormalized.getD "").data u.pathname.data) := by
        unfold isTwitterInLinks
        rw [htr]
        simp only [Bool.not_true, Bool.false_eq_true, if_false, if_pos hok]
      have hurl : ∀ u ∈ urls, isTwitterInUrl u src =
          .ok (twitterPathTest (src.twitterNormalized.getD "").data u.pathname.data) := by
        intro u hu
        unfold isTwitterInUrl
        rw [htr]
        simp only [Bool.not_true, Bool.false_eq_true, if_false]
        rw [if_pos (hplat u hu), if_pos (hok' ▸ hok)]
      rw [hlinks]
      simp only [Except.ok.injEq]
      rw [List.any_eq_true]
      constructor
      · rintro ⟨u, hu, hg⟩
        exact ⟨u, hu, by rw [hurl u hu, hg]⟩
      · rintro ⟨u, hu, hg⟩
        rw [hurl u hu] at hg
        exact ⟨u, hu, by simpa using hg⟩
    · have hlinks : isTwitterInLinks urls src = .error () := by
        unfold isTwitterInLinks
        rw [htr]
        simp only [Bool.not_true, Bool.false_eq_true, if_false, if_neg hok]
      have hurl : ∀ u ∈ urls, isTwitterInUrl u src = .error () := by
        intro u hu
        unfold isTwitterInUrl
        rw [htr]
        simp only [Bool.not_true, Bool.false_eq_true, if_false]
        rw [if_pos (hplat u hu), if_neg (hok' ▸ hok)]
      rw [hlinks]
      constructor
      · intro h
        exact absurd h (by simp)
      · rintro ⟨u, hu, hg⟩
        rw [hurl u hu] at hg
        exact absurd hg (by simp)
  · have htr' : truthy src.twitterNormalized = false := by
      simpa using htr
    have hlinks : isTwitterInLinks urls src = .ok false := by
      unfold isTwitterInLinks
      rw [htr']
      simp
    have hurl : ∀ u ∈ urls, isTwitterInUrl u src = .ok false := by
      intro u _
      unfold isTwitterInUrl
      rw [htr']
      simp
    rw [hlinks]
    constructor
    · intro h
      exact absurd h (by simp)
    · rintro ⟨u, hu, hg⟩
      rw [hurl u hu] at hg
      exact absurd hg (by simp)

/-- C1 witness: the amended equivalence applied to a concrete
platform-hostname link list. -/
theorem C1_witness :
    (∀ u ∈ [(⟨"x.com", "/foo_twitter"⟩ : URLm)],
      lcL u.hostname.data = "x.com".data ∨ lcL u.hostname.data = "twitter.com".data) ∧
    (isTwitterInLinks [⟨"x.com", "/foo_twitter"⟩] srcHandle = .ok true ↔
      ∃ u ∈ [(⟨"x.com", "/foo_twitter"⟩ : URLm)], isTwitterInUrl u srcHandle = .ok true) :=
  ⟨by decide, C1_links_iff_single [⟨"x.com", "/foo_twitter"⟩] srcHandle (by decide)⟩

/-! ## Claim C4 -/

/-- C4 counterexample: the claim says `isNameInBody` agrees with
`isNameInTitle` on every text.  For a common name the body pattern's
colon alternative is unanchored, so `x fooname: y` matches in the body
channel but not in the title channel. -/
theorem C4_counterexample :
    isNameInBody "x fooname: y" srcCommon = .ok true ∧
    isNameInTitle "x fooname: y" srcCommon = .ok false := by
  decide

/-- C4 (amended): for sources with an uncommon name the body and title
name predicates agree; for a common name the body predicate additionally
accepts texts where the name followed by a colon occurs anywhere (the
title channel anchors that alternative at the start). -/
theorem C4_body_vs_title (src : Source) (t : String)
    (hsafe : src.nameNormalized.data.all safeFragChar = true) :
    isNameInBody t src = .ok true ↔
      (isNameInTitle t src = .ok true ∨
        (src.nameIsCommon = true ∧
          search (colonAt src.nameNormalized.data) t.data = true)) := by
  unfold isNameInBody isNameInTitle
  by_cases hc : src.nameIsCommon = true
  · rw [if_pos hc, if_pos hc, if_pos (regexSyntaxOk_nameBodyCommonPattern _ hsafe),
      if_pos (regexSyntaxOk_nameCommonPattern _ hsafe)]
    unfold nameBodyCommonTest nameCommonTest
    simp only [Except.ok.injEq, hc, true_and, Bool.or_eq_true]
    constructor
    · rintro (hcol | hbr)
      · right
        exact hcol
      · left
        right
        exact hbr
    · rintro ((hpre | hbr) | hcol)
      · left
        exact search_of_head _ _ hpre
      · right
        exact hbr
      · left
        exact hcol
  · have hc' : src.nameIsCommon = false := by simpa using hc
    rw [if_neg hc, if_neg hc, if_pos (regexSyntaxOk_nameWordPattern _ hsafe)]
    simp [hc']

/-- C4 witness: the amended equivalence applied to a concrete common-name
source and text. -/
theorem C4_witness :
    (srcCommon.nameNormalized.data.all safeFragChar = true) ∧
    (isNameInBody "fooname: y" srcCommon = .ok true ↔
      (isNameInTitle "fooname: y" srcCommon = .ok true ∨
        (srcCommon.nameIsCommon = true ∧
          search (colonAt srcCommon.nameNormalized.data) "fooname: y".data = true))) :=
  ⟨by decide, C4_body_vs_title srcCommon "fooname: y" (by decide)⟩


/-! ## Claim C5 -/

/-- Raw-post fixture with a `www.` primary URL and a `www.` body link. -/
def rawPostWww : RedditPost :=
  ⟨"t3_1", "sub", "A Title", some "see https://www.news.example/a x",
    "https://www.example.com/story"⟩

/-- C5 counterexample: the claim says `processPost` normalizes away a
leading `www.` on the primary URL's hostname.  It does not: the primary
URL keeps `www.example.com` (as does the link's `www.news.example`). -/
theorem C5_counterexample :
    (processPost rawPostWww).url = some ⟨"www.example.com", "/story"⟩ ∧
    (processPost rawPostWww).links = some [⟨"www.news.example", "/a"⟩] := by
  decide

/-- C5 (amended): `processPost` passes the primary URL through exactly as
parsed — in particular it does NOT strip a leading `www.` — nulling it
only when self-referential, and likewise leaves link hostnames as parsed
while dropping self-referential links. -/
theorem C5_processPost_url_passthrough (p : RedditPost) :
    (∀ u, (processPost p).url = some u →
      u = parseURL p.url ∧ selfHostnames.contains u.hostname = false) ∧
    (∀ ls, (processPost p).links = some ls → ∀ u ∈ ls,
      selfHostnames.contains u.hostname = false ∧
        ∃ raw ∈ linkifyMatch (p.body.getD ""), u = parseURL raw) := by
  constructor
  · intro u hu
    unfold processPost at hu
    simp only at hu
    by_cases hsh : selfHostnames.contains (parseURL p.url).hostname = true
    · rw [if_neg (by rw [hsh]; simp)] at hu
      exact absurd hu (by simp)
    · have hsh' : selfHostnames.contains (parseURL p.url).hostname = false := by
        simpa using hsh
      rw [if_pos (by rw [hsh']; rfl)] at hu
      have : parseURL p.url = u := by simpa using hu
      exact ⟨this.symm, this ▸ hsh'⟩
  · intro ls hls u hu
    unfold processPost at hls
    simp only at hls
    by_cases hb : truthy p.body = true
    · rw [if_pos hb] at hls
      unfold getPostLinks at hls
      simp only at hls
      set links := (linkifyMatch (p.body.getD "")).filterMap (fun raw =>
        let url := parseURL raw
        if selfHostnames.contains url.hostname then none else some url) with hl
      by_cases hlen : links.length > 0
      · rw [if_pos hlen] at hls
        have hlseq : links = ls := by simpa using hls
        rw [← hlseq] at hu
        rw [hl] at hu
        obtain ⟨raw, hraw, hf⟩ := List.mem_filterMap.mp hu
        by_cases hself : selfHostnames.contains (parseURL raw).hostname = true
        · rw [if_pos hself] at hf
          exact absurd hf (by simp)
        · rw [if_neg hself] at hf
          have hfu : parseURL raw = u := by simpa using hf
          refine ⟨hfu ▸ (by simpa using hself), raw, hraw, hfu.symm⟩
      · rw [if_neg hlen] at hls
        exact absurd hls (by simp)
    · rw [if_neg hb] at hls
      exact absurd hls (by simp)

/-- C5 witness: the amended pass-through property applied to the
concrete `www.` post. -/
theorem C5_witness :
    ((⟨"www.example.com", "/story"⟩ : URLm) = parseURL rawPostWww.url ∧
      selfHostnames.contains (⟨"www.example.com", "/story"⟩ : URLm).hostname = false) ∧
    (selfHostnames.contains (⟨"www.news.example", "/a"⟩ : URLm).hostname = false ∧
      ∃ raw ∈ linkifyMatch (rawPostWww.body.getD ""),
        (⟨"www.news.example", "/a"⟩ : URLm) = parseURL raw) :=
  ⟨(C5_processPost_url_passthrough rawPostWww).1 ⟨"www.example.com", "/story"⟩ (by decide),
   (C5_processPost_url_passthrough rawPostWww).2 [⟨"www.news.example", "/a"⟩] (by decide)
     ⟨"www.news.example", "/a"⟩ (by decide)⟩

/-! ## Claim C2 -/

/-- Safety of all dynamic regex fragments a source contributes. -/
def fragmentsSafe (s : Source) : Prop :=
  s.nameNormalized.data.all safeFragChar = true ∧
  (∀ hdl, s.twitterNormalized = some hdl → hdl.data.all safeFragChar = true) ∧
  (∀ ds, s.domains = some ds → ∀ d ∈ ds, d.data.all domSafeChar = true)

theorem truthy_eq_some {o : Option String} (h : truthy o = true) :
    o = some (o.getD "") := by
  cases o with
  | none => simp [truthy] at h
  | some s => rfl

theorem isNameInTitle_isOk (t : String) (src : Source) (hs : fragmentsSafe src) :
    ∃ b, isNameInTitle t src = .ok b := by
  unfold isNameInTitle
  by_cases hc : src.nameIsCommon = true
  · rw [if_pos hc, if_pos (regexSyntaxOk_nameCommonPattern _ hs.1)]
    exact ⟨_, rfl⟩
  · rw [if_neg hc, if_pos (regexSyntaxOk_nameWordPattern _ hs.1)]
    exact ⟨_, rfl⟩

theorem isNameInBody_isOk (t : String) (src : Source) (hs : fragmentsSafe src) :
    ∃ b, isNameInBody t src = .ok b := by
  unfold isNameInBody
  by_cases hc : src.nameIsCommon = true
  · rw [if_pos hc, if_pos (regexSyntaxOk_nameBodyCommonPattern _ hs.1)]
    exact ⟨_, rfl⟩
  · rw [if_neg hc, if_pos (regexSyntaxOk_nameWordPattern _ hs.1)]
    exact ⟨_, rfl⟩

theorem isTwitterInTitle_isOk (t : String) (src : Source) (hs : fragmentsSafe src) :
    ∃ b, isTwitterInTitle t src = .ok b := by
  unfold isTwitterInTitle
  by_cases htr : truthy src.twitterNormalized = true
  · have hhdl := hs.2.1 _ (truthy_eq_some htr)
    rw [htr]
    simp only [Bool.not_true, Bool.false_eq_true, if_false]
    rw [if_pos (regexSyntaxOk_twitterTextPattern _ hhdl)]
    exact ⟨_, rfl⟩
  · have htr' : truthy src.twitterNormalized = false := by simpa using htr
    rw [htr']
    exact ⟨false, rfl⟩

theorem isTwitterInBody_isOk (t : String) (src : Source) (hs : fragmentsSafe src) :
    ∃ b, isTwitterInBody t src = .ok b := by
  unfold isTwitterInBody
  by_cases htr : truthy src.twitterNormalized = true
  · have hhdl := hs.2.1 _ (truthy_eq_some htr)
    rw [htr]
    simp only [Bool.not_true, Bool.false_eq_true, if_false]
    rw [if_pos (regexSyntaxOk_twitterTextPattern _ hhdl)]
    exact ⟨_, rfl⟩
  · have htr' : truthy src.twitterNormalized = false := by simpa using htr
    rw [htr']
    exact ⟨false, rfl⟩

theorem isTwitterInUrl_isOk (u : URLm) (src : Source) (hs : fragmentsSafe src) :
    ∃ b, isTwitterInUrl u src = .ok b := by
  unfold isTwitterInUrl
  by_cases htr : truthy src.twitterNormalized = true
  · have hhdl := hs.2.1 _ (truthy_eq_some htr)
    rw [htr]
    simp only [Bool.not_true, Bool.false_eq_true, if_false]
    by_cases hplat : lcL u.hostname.data = "x.com".data ∨
        lcL u.hostname.data = "twitter.com".data
    · rw [if_pos hplat, if_pos (regexSyntaxOk_twitterUrlPattern _ hhdl)]
      exact ⟨_, rfl⟩
    · rw [if_neg hplat]
      exact ⟨false, rfl⟩
  · have htr' : truthy src.twitterNormalized = false := by simpa using htr
    rw [htr']
    exact ⟨false, rfl⟩

theorem isTwitterInLinks_isOk (us : List URLm) (src : Source) (hs : fragmentsSafe src) :
    ∃ b, isTwitterInLinks us src = .ok b := by
  unfold isTwitterInLinks
  by_cases htr : truthy src.twitterNormalized = true
  · have hhdl := hs.2.1 _ (truthy_eq_some htr)
    rw [htr]
    simp only [Bool.not_true, Bool.false_eq_true, if_false]
    rw [if_pos ((regexSyntaxOk_twitterUrl_eq_links _) ▸
      regexSyntaxOk_twitterUrlPattern _ hhdl)]
    exact ⟨_, rfl⟩
  · have htr' : truthy src.twitterNormalized = false := by simpa using htr
    rw [htr']
    exact ⟨false, rfl⟩

theorem isDomainInUrl_isOk (u : URLm) (src : Source) (hs : fragmentsSafe src) :
    ∃ b, isDomainInUrl u src = .ok b := by
  unfold isDomainInUrl
  cases hdom : src.domains with
  | none => exact ⟨false, rfl⟩
  | some ds =>
    refine ⟨ds.any (fun d => domMatch d.data u.hostname.data), anyME_ok ds _ _ ?_⟩
    intro d hd
    rw [if_pos (regexSyntaxOk_domainPattern d (hs.2.2 ds hdom d hd))]

theorem isDomainInLinks_isOk (us : List URLm) (src : Source) (hs : fragmentsSafe src) :
    ∃ b, isDomainInLinks us src = .ok b := by
  unfold isDomainInLinks
  cases hdom : src.domains with
  | none => exact ⟨false, rfl⟩
  | some ds =>
    by_cases hlen : ds.length < 1
    · exact ⟨false, if_pos hlen⟩
    · refine ⟨us.any (fun u => ds.any (fun d => domMatch d.data u.hostname.data)),
        (if_neg hlen).trans ?_⟩
      refine anyME_ok us _ _ ?_
      intro u _
      refine anyME_ok ds _ _ ?_
      intro d hd
      rw [if_pos (regexSyntaxOk_domainPattern d (hs.2.2 ds hdom d hd))]

/-- If both predicates are throw-free on every source of the registry,
the whole matching loop is. -/
theorem findMatchesWith_isOk (p1 p2 : Source → Except Unit Bool)
    (sources : List Source)
    (h1 : ∀ src ∈ sources, ∃ b, p1 src = .ok b)
    (h2 : ∀ src ∈ sources, ∃ b, p2 src = .ok b) :
    ∀ l, ∃ m, findMatchesWith p1 p2 sources l = .ok m := by
  induction sources with
  | nil => exact fun l => ⟨l, rfl⟩
  | cons src rest ih =>
    intro l
    obtain ⟨b, hb⟩ := h1 src (List.mem_cons_self src rest)
    have ih' := ih (fun s h => h1 s (List.mem_cons_of_mem _ h))
      (fun s h => h2 s (List.mem_cons_of_mem _ h))
    rw [findMatchesWith]
    rw [hb]
    show ∃ m, (Except.ok b >>= fun b => if b then _ else _) = .ok m
    cases b with
    | true =>
      obtain ⟨m, hm⟩ := ih' (mapSet l src.id src)
      exact ⟨m, by simpa [bind, Except.bind] using hm⟩
    | false =>
      obtain ⟨b2, hb2⟩ := h2 src (List.mem_cons_self src rest)
      cases b2 with
      | true =>
        obtain ⟨m, hm⟩ := ih' (mapSet l src.id src)
        exact ⟨m, by simpa [bind, Except.bind, hb2] using hm⟩
      | false =>
        obtain ⟨m, hm⟩ := ih' l
        exact ⟨m, by simpa [bind, Except.bind, hb2] using hm⟩

/-- C2 counterexample: the claim says `findSourcesInPost` never throws on
a schema-valid registry and treats an unparseable fragment as matching
nothing.  The schema constrains `name` to be any string: the name `(`
is schema-valid, its pattern `\b(\b` does not parse, and the embedded
scan aborts with the thrown error instead of skipping the source. -/
theorem C2_counterexample :
    schemaValid srcParen ∧
    findSourcesInPost ⟨"p", "s", "any title", none, none, none⟩
      ⟨[srcParen], "", "", "", false, [], ""⟩ = .error () := by
  constructor
  · constructor
    · decide
    · decide
  · decide

/-- C2 (amended): `findSourcesInPost` terminates normally (never throws)
provided every source's name, handle and domain fragments are free of
regex metacharacters; a source whose fragment yields an unparseable
pattern instead aborts the whole scan with the thrown `SyntaxError`. -/
theorem C2_no_throw (post : PostData) (settings : AppSettings)
    (hsafe : ∀ src ∈ settings.sources, fragmentsSafe src) :
    ∃ r, findSourcesInPost post settings = .ok r := by
  obtain ⟨m1, hm1⟩ := findMatchesWith_isOk _ _ settings.sources
    (fun s h => isNameInTitle_isOk post.titleNormalized s (hsafe s h))
    (fun s h => isTwitterInTitle_isOk post.titleNormalized s (hsafe s h)) []
  have step2 : ∀ l : List (String × Source), ∃ m,
      urlStep post settings l = Except.ok m := by
    intro l
    unfold urlStep
    cases post.url with
    | none => exact ⟨l, rfl⟩
    | some u =>
      exact findMatchesWith_isOk _ _ settings.sources
        (fun s h => isTwitterInUrl_isOk u s (hsafe s h))
        (fun s h => isDomainInUrl_isOk u s (hsafe s h)) l
  have step3 : ∀ l : List (String × Source), ∃ m,
      linksStep post settings l = Except.ok m := by
    intro l
    unfold linksStep
    cases post.links with
    | none => exact ⟨l, rfl⟩
    | some us =>
      exact findMatchesWith_isOk _ _ settings.sources
        (fun s h => isTwitterInLinks_isOk us s (hsafe s h))
        (fun s h => isDomainInLinks_isOk us s (hsafe s h)) l
  have step4 : ∀ l : List (String × Source), ∃ m,
      bodyStep post settings l = Except.ok m := by
    intro l
    unfold bodyStep
    by_cases hb : (truthy post.bodyNormalized && settings.analyzePostBody) = true
    · rw [if_pos hb]
      exact findMatchesWith_isOk _ _ settings.sources
        (fun s h => isNameInBody_isOk _ s (hsafe s h))
        (fun s h => isTwitterInBody_isOk _ s (hsafe s h)) l
    · rw [if_neg hb]
      exact ⟨l, rfl⟩
  obtain ⟨m2, hm2⟩ := step2 m1
  obtain ⟨m3, hm3⟩ := step3 m2
  obtain ⟨m4, hm4⟩ := step4 m3
  refine ⟨if (sortByTier (m4.map Prod.snd)).length > 0 then
    some (sortByTier (m4.map Prod.snd)) else none, ?_⟩
  unfold findSourcesInPost
  rw [show findMatchesInTitle post.titleNormalized settings.sources [] = .ok m1 from hm1]
  simp only [ok_bind]
  rw [hm2]
  simp only [ok_bind]
  rw [hm3]
  simp only [ok_bind]
  rw [hm4]
  simp only [ok_bind]
  rfl

/-- C2 witness: the throw-freedom applied to a concrete safe registry. -/
theorem C2_witness :
    (∀ src ∈ [srcUncommon, srcHandle, srcDomain], fragmentsSafe src) ∧
    ∃ r, findSourcesInPost ⟨"p", "s", "title with fooname in it", none, none, none⟩
      ⟨[srcUncommon, srcHandle, srcDomain], "", "", "", false, [], ""⟩ = .ok r := by
  have hsafe : ∀ src ∈ [srcUncommon, srcHandle, srcDomain], fragmentsSafe src := by
    intro src hsrc
    simp only [List.mem_cons, List.not_mem_nil, or_false] at hsrc
    rcases hsrc with rfl | rfl | rfl
    · refine ⟨by decide, ?_, ?_⟩
      · intro hdl hh
        simp [srcUncommon] at hh
      · intro ds hd
        simp [srcUncommon] at hd
    · refine ⟨by decide, ?_, ?_⟩
      · intro hdl hh
        have : hdl = "foo_twitter" := by simpa [srcHandle] using hh.symm
        subst this
        decide
      · intro ds hd
        simp [srcHandle] at hd
    · refine ⟨by decide, ?_, ?_⟩
      · intro hdl hh
        simp [srcDomain] at hh
      · intro ds hd
        have : ds = ["foo.com"] := by simpa [srcDomain] using hd.symm
        subst this
        intro d hd'
        simp only [List.mem_cons, List.not_mem_nil, or_false] at hd'
        subst hd'
        decide
  exact ⟨hsafe, C2_no_throw _ _ hsafe⟩



/-! ## Claim C3 -/

/-- Binding a thrown error keeps the error. -/
theorem error_bind {ε α β : Type} (e : ε) (f : α → Except ε β) :
    (Except.error e >>= f) = Except.error e := rfl

theorem insertByKey_perm (x : Source) (l : List Source) :
    List.Perm (insertByKey x l) (x :: l) := by
  induction l with
  | nil => exact List.Perm.refl _
  | cons y ys ih =>
    rw [insertByKey]
    by_cases h : tierKey x ≤ tierKey y
    · rw [if_pos h]
    · rw [if_neg h]
      exact (ih.cons y).trans (List.Perm.swap x y ys)

theorem sortByTier_perm (l : List Source) : List.Perm (sortByTier l) l := by
  induction l with
  | nil => exact List.Perm.refl _
  | cons x xs ih =>
    rw [sortByTier]
    exact (insertByKey_perm x (sortByTier xs)).trans (ih.cons x)

theorem insertByKey_pairwise (x : Source) (l : List Source)
    (h : l.Pairwise (fun a b => tierKey a ≤ tierKey b)) :
    (insertByKey x l).Pairwise (fun a b => tierKey a ≤ tierKey b) := by
  induction l with
  | nil => simp [insertByKey]
  | cons y ys ih =>
    obtain ⟨hy, hys⟩ := List.pairwise_cons.mp h
    rw [insertByKey]
    by_cases hxy : tierKey x ≤ tierKey y
    · rw [if_pos hxy]
      refine List.Pairwise.cons ?_ h
      intro z hz
      rcases List.mem_cons.mp hz with rfl | hz'
      · exact hxy
      · exact le_trans hxy (hy z hz')
    · rw [if_neg hxy]
      have hyx : tierKey y ≤ tierKey x := by omega
      refine List.Pairwise.cons ?_ (ih hys)
      intro z hz
      have hz' := (insertByKey_perm x ys).mem_iff.mp hz
      rcases List.mem_cons.mp hz' with rfl | hz''
      · exact hyx
      · exact hy z hz''

theorem sortByTier_pairwise (l : List Source) :
    (sortByTier l).Pairwise (fun a b => tierKey a ≤ tierKey b) := by
  induction l with
  | nil => simp [sortByTier]
  | cons x xs ih =>
    rw [sortByTier]
    exact insertByKey_pairwise x (sortByTier xs) ih

/-- Decomposition of a non-null scan into its four channel stages. -/
theorem findSourcesInPost_ok_elim (post : PostData) (settings : AppSettings)
    (l : List Source) (h : findSourcesInPost post settings = .ok (some l)) :
    ∃ m1 m2 m3 m4 : List (String × Source),
      findMatchesInTitle post.titleNormalized settings.sources [] = .ok m1 ∧
      urlStep post settings m1 = .ok m2 ∧
      linksStep post settings m2 = .ok m3 ∧
      bodyStep post settings m3 = .ok m4 ∧
      l = sortByTier (m4.map Prod.snd) := by
  unfold findSourcesInPost at h
  cases h1 : findMatchesInTitle post.titleNormalized settings.sources [] with
  | error e =>
    rw [h1, error_bind] at h
    exact absurd h (by simp)
  | ok m1 =>
    rw [h1, ok_bind] at h
    cases h2 : urlStep post settings m1 with
    | error e =>
      rw [h2, error_bind] at h
      exact absurd h (by simp)
    | ok m2 =>
      rw [h2, ok_bind] at h
      cases h3 : linksStep post settings m2 with
      | error e =>
        rw [h3, error_bind] at h
        exact absurd h (by simp)
      | ok m3 =>
        rw [h3, ok_bind] at h
        cases h4 : bodyStep post settings m3 with
        | error e =>
          rw [h4, error_bind] at h
          exact absurd h (by simp)
        | ok m4 =>
          rw [h4, ok_bind] at h
          have h' : (pure (if (sortByTier (m4.map Prod.snd)).length > 0 then
              some (sortByTier (m4.map Prod.snd)) else none) :
                Except Unit (Option (List Source))) = Except.ok (some l) := h
          by_cases hlen : (sortByTier (m4.map Prod.snd)).length > 0
          · rw [if_pos hlen] at h'
            have heq : some (sortByTier (m4.map Prod.snd)) = some l := by
              simpa [pure, Except.pure] using h'
            refine ⟨m1, m2, m3, m4, rfl, h2, h3, h4, ?_⟩
            have hsl : sortByTier (m4.map Prod.snd) = l := by simpa using heq
            exact hsl.symm
          · rw [if_neg hlen] at h'
            have heq : (none : Option (List Source)) = some l := by
              simpa [pure, Except.pure] using h'
            exact absurd heq (by simp)

/-- Stable insertion does not reorder the elements of any single key:
elements skipped by the insertion all have a strictly smaller key than
the inserted element. -/
theorem insertByKey_filter (x : Source) (ys : List Source) (k : Int) :
    (insertByKey x ys).filter (fun s => tierKey s == k) =
      ((x :: ys).filter (fun s => tierKey s == k)) := by
  induction ys with
  | nil => rfl
  | cons y ys ih =>
    rw [insertByKey]
    by_cases hxy : tierKey x ≤ tierKey y
    · rw [if_pos hxy]
    · rw [if_neg hxy]
      by_cases hpx : (tierKey x == k) = true
      · have hpy : (tierKey y == k) = false := by
          rw [beq_eq_false_iff_ne]
          intro he
          have h1 := beq_iff_eq.mp hpx
          exact hxy (by omega)
        simp [List.filter_cons, ih, hpx, hpy]
      · have hpx' : (tierKey x == k) = false := by simpa using hpx
        simp [List.filter_cons, ih, hpx']

/-- The tier sort is stable: it preserves the relative order of the
elements of each key. -/
theorem sortByTier_filter (xs : List Source) (k : Int) :
    (sortByTier xs).filter (fun s => tierKey s == k) =
      xs.filter (fun s => tierKey s == k) := by
  induction xs with
  | nil => rfl
  | cons x xs ih =>
    rw [sortByTier, insertByKey_filter, List.filter_cons, List.filter_cons, ih]


/-- C3 counterexample: the claim says every untiered source is placed
after every tiered one.  The comparator treats an absent tier as 6, so
the untiered source sorts before a source of tier 7. -/
theorem C3_counterexample :
    findSourcesInPost ⟨"p", "s", "alpha beta", none, none, none⟩
        ⟨[srcUntiered, srcTier7], "", "", "", false, [], ""⟩ =
      .ok (some [srcUntiered, srcTier7]) ∧
    srcUntiered.tier = none ∧ srcTier7.tier = some 7 := by
  decide

/-- C3 (amended): a non-null result of `findSourcesInPost` is sorted
ascending by the effective tier `tier ?? 6` — untiered sources sort
after all sources of tier below 6 and before those of tier above 6 —
and the sort is stable among equal keys: for every key value, the
elements of that key appear in exactly the order in which the channel
scan collected them into the match map. -/
theorem C3_sorted_by_tierKey (post : PostData) (settings : AppSettings)
    (l : List Source) (h : findSourcesInPost post settings = .ok (some l)) :
    l.Pairwise (fun a b => tierKey a ≤ tierKey b) ∧
    ∃ m1 m2 m3 m4 : List (String × Source),
      findMatchesInTitle post.titleNormalized settings.sources [] = .ok m1 ∧
      urlStep post settings m1 = .ok m2 ∧
      linksStep post settings m2 = .ok m3 ∧
      bodyStep post settings m3 = .ok m4 ∧
      ∀ k : Int, l.filter (fun s => tierKey s == k) =
        (m4.map Prod.snd).filter (fun s => tierKey s == k) := by
  obtain ⟨m1, m2, m3, m4, h1, h2, h3, h4, hl⟩ :=
    findSourcesInPost_ok_elim post settings l h
  constructor
  · rw [hl]
    exact sortByTier_pairwise _
  · refine ⟨m1, m2, m3, m4, h1, h2, h3, h4, ?_⟩
    intro k
    rw [hl]
    exact sortByTier_filter (m4.map Prod.snd) k

/-- Concrete two-source fixtures for the sortedness witness. -/
def postAlphaBeta : PostData := ⟨"p", "s", "alpha beta", none, none, none⟩

def settingsTwoSrc : AppSettings :=
  ⟨[srcUntiered, srcTier7], "", "", "", false, [], ""⟩

/-- C3 witness: sortedness and per-key stability applied to the
concrete two-source run. -/
theorem C3_witness :
    ([srcUntiered, srcTier7] : List Source).Pairwise
      (fun a b => tierKey a ≤ tierKey b) ∧
    ∃ m1 m2 m3 m4 : List (String × Source),
      findMatchesInTitle postAlphaBeta.titleNormalized settingsTwoSrc.sources [] = .ok m1 ∧
      urlStep postAlphaBeta settingsTwoSrc m1 = .ok m2 ∧
      linksStep postAlphaBeta settingsTwoSrc m2 = .ok m3 ∧
      bodyStep postAlphaBeta settingsTwoSrc m3 = .ok m4 ∧
      ∀ k : Int,
        ([srcUntiered, srcTier7] : List Source).filter (fun s => tierKey s == k) =
          (m4.map Prod.snd).filter (fun s => tierKey s == k) :=
  C3_sorted_by_tierKey postAlphaBeta settingsTwoSrc
    [srcUntiered, srcTier7] (by decide)



/-! ## Claim C7 -/

theorem noWordEdge_eq (o : Option Char) : noWordEdge o = !isW o := by
  cases o <;> rfl

theorem lastP_none_eq (u : List Char) : lastP none u = u.getLast? := by
  unfold lastP
  cases u.getLast? <;> rfl

theorem lastP_of_ne_nil (prev : Option Char) {w : List Char} (h : w ≠ []) :
    lastP prev w = w.getLast? := by
  unfold lastP
  cases hg : w.getLast? with
  | some c => rfl
  | none => exact absurd (List.getLast?_eq_none_iff.mp hg) h

theorem lcL_length (w : List Char) : (lcL w).length = w.length := by
  simp [lcL]

theorem all_getLast? {p : Char → Bool} {w : List Char} {c : Char}
    (hall : w.all p = true) (h : w.getLast? = some c) : p c = true :=
  List.all_eq_true.mp hall c (List.mem_of_getLast?_eq_some h)

theorem all_head? {p : Char → Bool} {w : List Char} {c : Char}
    (hall : w.all p = true) (h : w.head? = some c) : p c = true := by
  cases w with
  | nil => simp at h
  | cons x xs =>
    have hx : x = c := by simpa using h
    subst hx
    rw [List.all_cons, Bool.and_eq_true] at hall
    exact hall.1

/-- Characterisation of the `\bNAME\b` test for a nonempty
all-word-character name: it succeeds exactly on texts containing a
case-folded copy of the name delimited by non-word characters or text
edges. -/
theorem nameWordTest_iff (n t : List Char) (hne : n ≠ [])
    (hw : n.all wordChar = true) :
    nameWordTest n t = true ↔
      ∃ u w v, t = u ++ w ++ v ∧ lcL w = lcL n ∧
        noWordEdge u.getLast? = true ∧ noWordEdge v.head? = true := by
  unfold nameWordTest
  rw [search_iff]
  constructor
  · rintro ⟨u, v', huv, hf⟩
    unfold wordAt at hf
    rw [Bool.and_eq_true] at hf
    obtain ⟨hb1, hb2⟩ := hf
    cases hm : litMP n (lastP none u) v' with
    | none => rw [hm] at hb2; exact absurd hb2 (by simp)
    | some r =>
      obtain ⟨pv, rest⟩ := r
      rw [hm] at hb2
      have hb2' : wordB pv rest.head? = true := hb2
      obtain ⟨w, hv', hlen, hlc, hr1⟩ :=
        (litMP_iff n (lastP none u) v' pv rest).mp (by rw [hm])
      have hwne : w ≠ [] := by
        intro hnil
        rw [hnil] at hlen
        exact hne (List.eq_nil_of_length_eq_zero (by simpa using hlen.symm))
      have hwall : w.all wordChar = true := all_wordChar_of_lcL hlc hw
      obtain ⟨w0, hw0⟩ := Option.isSome_iff_exists.mp
        (by rw [List.head?_isSome]; exact hwne : (w.head?).isSome = true)
      have hvhead : v'.head? = some w0 := by
        rw [hv']
        cases w with
        | nil => exact absurd rfl hwne
        | cons x xs => simpa using hw0
      have hw0w : wordChar w0 = true := all_head? hwall hw0
      have hbu : noWordEdge u.getLast? = true := by
        rw [hvhead] at hb1
        unfold wordB at hb1
        rw [noWordEdge_eq, ← lastP_none_eq]
        have : isW (some w0) = true := by simp [isW, hw0w]
        rw [this] at hb1
        cases hiw : isW (lastP none u) with
        | false => rfl
        | true => rw [hiw] at hb1; simp at hb1
      have hr1' : pv = w.getLast? := by
        rw [hr1]
        exact lastP_of_ne_nil _ hwne
      obtain ⟨wl, hwl⟩ := Option.isSome_iff_exists.mp
        (by rw [List.getLast?_isSome]; exact hwne : (w.getLast?).isSome = true)
      have hwlw : wordChar wl = true := all_getLast? hwall hwl
      have hbv : noWordEdge rest.head? = true := by
        rw [hr1', hwl] at hb2'
        unfold wordB at hb2'
        rw [noWordEdge_eq]
        have hsw : isW (some wl) = true := by simp [isW, hwlw]
        rw [hsw] at hb2'
        cases hiw : isW rest.head? with
        | false => rfl
        | true => rw [hiw] at hb2'; simp at hb2'
      exact ⟨u, w, rest, by rw [huv, hv', List.append_assoc], hlc, hbu, hbv⟩
  · rintro ⟨u, w, v, ht, hlc, hbu, hbv⟩
    have hlen : w.length = n.length := by
      have := congrArg List.length hlc
      simpa [lcL] using this
    have hwne : w ≠ [] := by
      intro hnil
      rw [hnil] at hlen
      exact hne (List.eq_nil_of_length_eq_zero (by simpa using hlen.symm))
    have hwall : w.all wordChar = true := all_wordChar_of_lcL hlc hw
    refine ⟨u, w ++ v, by rw [ht, List.append_assoc], ?_⟩
    unfold wordAt
    rw [Bool.and_eq_true]
    constructor
    · obtain ⟨w0, hw0⟩ := Option.isSome_iff_exists.mp
        (by rw [List.head?_isSome]; exact hwne : (w.head?).isSome = true)
      have hw0w : wordChar w0 = true := all_head? hwall hw0
      have hhead : (w ++ v).head? = some w0 := by
        cases w with
        | nil => exact absurd rfl hwne
        | cons x xs => simpa using hw0
      rw [hhead]
      unfold wordB
      rw [lastP_none_eq]
      have h1 : isW (some w0) = true := by simp [isW, hw0w]
      have h2 : isW u.getLast? = false := by
        rw [noWordEdge_eq] at hbu
        simpa using hbu
      rw [h1, h2]
      rfl
    · rw [(litMP_iff n (lastP none u) (w ++ v) (lastP (lastP none u) w) v).mpr
        ⟨w, rfl, hlen, hlc, rfl⟩]
      show wordB (lastP (lastP none u) w) v.head? = true
      rw [lastP_of_ne_nil _ hwne]
      obtain ⟨wl, hwl⟩ := Option.isSome_iff_exists.mp
        (by rw [List.getLast?_isSome]; exact hwne : (w.getLast?).isSome = true)
      have hwlw : wordChar wl = true := all_getLast? hwall hwl
      rw [hwl]
      unfold wordB
      have h1 : isW (some wl) = true := by simp [isW, hwlw]
      have h2 : isW v.head? = false := by
        rw [noWordEdge_eq] at hbv
        simpa using hbv
      rw [h1, h2]
      rfl

theorem all_wordChar_safe {n : List Char} (h : n.all wordChar = true) :
    n.all safeFragChar = true := by
  rw [List.all_eq_true] at h ⊢
  exact fun c hc => wordChar_safeFragChar (h c hc)

/-- C7: for a source with an uncommon name made of word characters, the
title name predicate holds exactly when the title contains the
normalized name as an isolated whole word (a case-folded copy bounded by
non-word characters or text edges); in particular a title containing the
name only inside a longer word does not match. -/
theorem C7_uncommon_whole_word (src : Source) (t : String)
    (hc : src.nameIsCommon = false)
    (hne : src.nameNormalized.data ≠ [])
    (hw : src.nameNormalized.data.all wordChar = true) :
    isNameInTitle t src = .ok true ↔
      ∃ u w v, t.data = u ++ w ++ v ∧ lcL w = lcL src.nameNormalized.data ∧
        noWordEdge u.getLast? = true ∧ noWordEdge v.head? = true := by
  unfold isNameInTitle
  rw [if_neg (by simp [hc]),
    if_pos (regexSyntaxOk_nameWordPattern _ (all_wordChar_safe hw))]
  simp only [Except.ok.injEq]
  exact nameWordTest_iff src.nameNormalized.data t.data hne hw

/-- C7 witness: the characterisation applied to a concrete title; the
backward direction produces the match at the explicit split
`"title with " ++ "fooname" ++ " in it"`. -/
theorem C7_witness :
    isNameInTitle "title with fooname in it" srcUncommon = .ok true :=
  (C7_uncommon_whole_word srcUncommon "title with fooname in it"
    (by decide) (by decide) (by decide)).mpr
    ⟨"title with ".data, "fooname".data, " in it".data,
      by decide, by decide, by decide, by decide⟩



/-! ## Claim C6 -/

/-- Characterisation of the bracket alternative `(\(|\[)FRAG(\)|\])`:
an occurrence of a case-folded copy of the fragment with an opening
bracket before it and a closing bracket after it (pairs may mix). -/
theorem search_brackAt_iff (n t : List Char) :
    search (brackAt n) t = true ↔
      ∃ u b1 w b2 v, t = u ++ (b1 :: w) ++ (b2 :: v) ∧ lcL w = lcL n ∧
        (b1 = '(' ∨ b1 = '[') ∧ (b2 = ')' ∨ b2 = ']') := by
  rw [search_iff]
  constructor
  · rintro ⟨u, v', huv, hf⟩
    cases v' with
    | nil => simp [brackAt] at hf
    | cons b s1 =>
      unfold brackAt at hf
      rw [Bool.and_eq_true] at hf
      obtain ⟨hb, hrest⟩ := hf
      cases hm : litMP n (some b) s1 with
      | none => rw [hm] at hrest; exact absurd hrest (by simp)
      | some r =>
        obtain ⟨pv, rest⟩ := r
        rw [hm] at hrest
        obtain ⟨w, hs1, hlen, hlc, -⟩ :=
          (litMP_iff n (some b) s1 pv rest).mp (by rw [hm])
        cases rest with
        | nil => simp at hrest
        | cons b2 v =>
          have hq : b2 = ')' ∨ b2 = ']' := by simpa using hrest
          refine ⟨u, b, w, b2, v, ?_, hlc, by simpa using hb, hq⟩
          rw [huv, hs1]
          simp
  · rintro ⟨u, b1, w, b2, v, ht, hlc, hb1, hb2⟩
    have hlen : w.length = n.length := by
      have hl := congrArg List.length hlc
      simpa [lcL] using hl
    refine ⟨u, b1 :: (w ++ b2 :: v), by rw [ht]; simp, ?_⟩
    unfold brackAt
    rw [Bool.and_eq_true]
    constructor
    · rcases hb1 with rfl | rfl <;> simp
    · rw [(litMP_iff n (some b1) (w ++ b2 :: v) (lastP (some b1) w) (b2 :: v)).mpr
        ⟨w, rfl, hlen, hlc, rfl⟩]
      rcases hb2 with rfl | rfl <;> simp

/-- Characterisation of `^NAME:|(\(|\[)NAME(\)|\])`. -/
theorem nameCommonTest_iff (n t : List Char) :
    nameCommonTest n t = true ↔
      ((prefCI (n ++ [':']) t).isSome = true ∨
        ∃ u b1 w b2 v, t = u ++ (b1 :: w) ++ (b2 :: v) ∧ lcL w = lcL n ∧
          (b1 = '(' ∨ b1 = '[') ∧ (b2 = ')' ∨ b2 = ']')) := by
  unfold nameCommonTest
  rw [Bool.or_eq_true, search_brackAt_iff]

/-- C6: for a source flagged `nameIsCommon`, the title name predicate
holds exactly when the normalized name immediately followed by a colon
opens the title, or a case-folded copy of the name is enclosed between
an opening and a closing bracket anywhere in the title; in particular a
title that contains the name only as bare prose (no bracket enclosure,
no colon anchor) never matches. -/
theorem C6_common_name_patterns (src : Source) (t : String)
    (hc : src.nameIsCommon = true)
    (hsafe : src.nameNormalized.data.all safeFragChar = true) :
    isNameInTitle t src = .ok true ↔
      ((prefCI (src.nameNormalized.data ++ [':']) t.data).isSome = true ∨
        ∃ u b1 w b2 v, t.data = u ++ (b1 :: w) ++ (b2 :: v) ∧
          lcL w = lcL src.nameNormalized.data ∧
          (b1 = '(' ∨ b1 = '[') ∧ (b2 = ')' ∨ b2 = ']')) := by
  unfold isNameInTitle
  rw [if_pos hc, if_pos (regexSyntaxOk_nameCommonPattern _ hsafe)]
  simp only [Except.ok.injEq]
  exact nameCommonTest_iff src.nameNormalized.data t.data

/-- C6 witness: the characterisation applied to a concrete bracketed
title, with the explicit enclosure `"see " ++ '[' :: "fooname" ++ ']' :: " now"`. -/
theorem C6_witness :
    isNameInTitle "see [fooname] now" srcCommon = .ok true :=
  (C6_common_name_patterns srcCommon "see [fooname] now"
    (by decide) (by decide)).mpr
    (Or.inr ⟨"see ".data, '[', "fooname".data, ']', " now".data,
      by decide, by decide, Or.inr rfl, Or.inr rfl⟩)



/-! ## Claim C8 -/

/-- Characterisation of the alternative `@FRAG\b` for a nonempty
all-word-character fragment: an `@` immediately followed by a
case-folded copy of the fragment whose right edge is a word boundary. -/
theorem search_atHandleAt_iff (h t : List Char) (hne : h ≠ [])
    (hw : h.all wordChar = true) :
    search (atHandleAt h) t = true ↔
      ∃ u w v, t = u ++ ('@' :: w) ++ v ∧ lcL w = lcL h ∧
        noWordEdge v.head? = true := by
  rw [search_iff]
  constructor
  · rintro ⟨u, v', huv, hf⟩
    cases v' with
    | nil => simp [atHandleAt] at hf
    | cons b s1 =>
      unfold atHandleAt at hf
      rw [Bool.and_eq_true] at hf
      obtain ⟨hb, hrest⟩ := hf
      have hbat : b = '@' := by simpa using hb
      cases hm : litMP h (some b) s1 with
      | none => rw [hm] at hrest; exact absurd hrest (by simp)
      | some r =>
        obtain ⟨pv, rest⟩ := r
        rw [hm] at hrest
        have hb2 : wordB pv rest.head? = true := hrest
        obtain ⟨w, hs1, hlen, hlc, hpv⟩ :=
          (litMP_iff h (some b) s1 pv rest).mp (by rw [hm])
        have hwne : w ≠ [] := by
          intro hnil
          rw [hnil] at hlen
          exact hne (List.eq_nil_of_length_eq_zero (by simpa using hlen.symm))
        have hwall : w.all wordChar = true := all_wordChar_of_lcL hlc hw
        obtain ⟨wl, hwl⟩ := Option.isSome_iff_exists.mp
          (by rw [List.getLast?_isSome]; exact hwne : (w.getLast?).isSome = true)
        have hwlw : wordChar wl = true := all_getLast? hwall hwl
        have hbv : noWordEdge rest.head? = true := by
          rw [hpv, lastP_of_ne_nil _ hwne, hwl] at hb2
          unfold wordB at hb2
          rw [noWordEdge_eq]
          have hsw : isW (some wl) = true := by simp [isW, hwlw]
          rw [hsw] at hb2
          cases hiw : isW rest.head? with
          | false => rfl
          | true => rw [hiw] at hb2; simp at hb2
        refine ⟨u, w, rest, ?_, hlc, hbv⟩
        rw [huv, hs1, hbat]
        simp
  · rintro ⟨u, w, v, ht, hlc, hbv⟩
    have hlen : w.length = h.length := by
      have hl := congrArg List.length hlc
      simpa [lcL] using hl
    have hwne : w ≠ [] := by
      intro hnil
      rw [hnil] at hlen
      exact hne (List.eq_nil_of_length_eq_zero (by simpa using hlen.symm))
    have hwall : w.all wordChar = true := all_wordChar_of_lcL hlc hw
    refine ⟨u, '@' :: (w ++ v), by rw [ht]; simp, ?_⟩
    unfold atHandleAt
    rw [Bool.and_eq_true]
    refine ⟨by simp, ?_⟩
    rw [(litMP_iff h (some '@') (w ++ v) (lastP (some '@') w) v).mpr
      ⟨w, rfl, hlen, hlc, rfl⟩]
    show wordB (lastP (some '@') w) v.head? = true
    rw [lastP_of_ne_nil _ hwne]
    obtain ⟨wl, hwl⟩ := Option.isSome_iff_exists.mp
      (by rw [List.getLast?_isSome]; exact hwne : (w.getLast?).isSome = true)
    have hwlw : wordChar wl = true := all_getLast? hwall hwl
    rw [hwl]
    unfold wordB
    have h1 : isW (some wl) = true := by simp [isW, hwlw]
    have h2 : isW v.head? = false := by
      rw [noWordEdge_eq] at hbv
      simpa using hbv
    rw [h1, h2]
    rfl

/-- Characterisation of `^@?HANDLE:|@HANDLE\b|(\(|\[)HANDLE(\)|\])`. -/
theorem twitterTextTest_iff (h t : List Char) (hne : h ≠ [])
    (hw : h.all wordChar = true) :
    twitterTextTest h t = true ↔
      ((prefCI (h ++ [':']) t).isSome = true ∨
       (prefCI ('@' :: h ++ [':']) t).isSome = true ∨
       (∃ u w v, t = u ++ ('@' :: w) ++ v ∧ lcL w = lcL h ∧
         noWordEdge v.head? = true) ∨
       (∃ u b1 w b2 v, t = u ++ (b1 :: w) ++ (b2 :: v) ∧ lcL w = lcL h ∧
         (b1 = '(' ∨ b1 = '[') ∧ (b2 = ')' ∨ b2 = ']'))) := by
  unfold twitterTextTest
  rw [Bool.or_eq_true, Bool.or_eq_true, Bool.or_eq_true,
    search_atHandleAt_iff h t hne hw, search_brackAt_iff]
  simp only [or_assoc]

/-- C8: for a source with a nonempty word-character handle, the title
handle predicate holds exactly when the handle (optionally preceded by
`@`) followed by a colon opens the text, or `@` immediately followed by
a case-folded copy of the handle with a word boundary on its right
occurs anywhere, or a case-folded copy of the handle is enclosed in
brackets; consequently a bare unadorned handle, a strict prefix
occurrence (`@handleX`), or an occurrence with an extra leading
character never matches.  The body predicate is the same function. -/
theorem C8_handle_patterns (src : Source) (t : String) (hdl : String)
    (hh : src.twitterNormalized = some hdl)
    (hne : hdl.data ≠ [])
    (hw : hdl.data.all wordChar = true) :
    (isTwitterInTitle t src = .ok true ↔
      ((prefCI (hdl.data ++ [':']) t.data).isSome = true ∨
       (prefCI ('@' :: hdl.data ++ [':']) t.data).isSome = true ∨
       (∃ u w v, t.data = u ++ ('@' :: w) ++ v ∧ lcL w = lcL hdl.data ∧
         noWordEdge v.head? = true) ∨
       (∃ u b1 w b2 v, t.data = u ++ (b1 :: w) ++ (b2 :: v) ∧
         lcL w = lcL hdl.data ∧
         (b1 = '(' ∨ b1 = '[') ∧ (b2 = ')' ∨ b2 = ']')))) ∧
    isTwitterInBody t src = isTwitterInTitle t src := by
  have hnil : (hdl == "") = false :=
    beq_eq_false_iff_ne.mpr (fun he => hne (by rw [he]))
  have htr : truthy src.twitterNormalized = true := by
    rw [hh]
    simp [truthy, hnil]
  have hgd : src.twitterNormalized.getD "" = hdl := by rw [hh]; rfl
  constructor
  · unfold isTwitterInTitle
    rw [htr]
    simp only [Bool.not_true, Bool.false_eq_true, if_false]
    rw [hgd, if_pos (regexSyntaxOk_twitterTextPattern _ (all_wordChar_safe hw))]
    simp only [Except.ok.injEq]
    exact twitterTextTest_iff hdl.data t.data hne hw
  · rfl

/-- C8 witness: the characterisation applied to a concrete `@handle`
title, with the explicit occurrence
`"title with " ++ '@' :: "foo_twitter" ++ " in it"`. -/
theorem C8_witness :
    isTwitterInTitle "title with @foo_twitter in it" srcHandle = .ok true :=
  ((C8_handle_patterns srcHandle "title with @foo_twitter in it" "foo_twitter"
      rfl (by decide) (by decide)).1).mpr
    (Or.inr (Or.inr (Or.inl
      ⟨"title with ".data, "foo_twitter".data, " in it".data,
        by decide, by decide, by decide⟩)))



/-! ## Claim C9 -/

theorem domSub_true_of (d pre : List Char) (hnl : '\n' ∉ pre) :
    domSub d (pre ++ '.' :: d) = true := by
  induction pre with
  | nil =>
    rw [domSub.eq_def]
    simp
  | cons c pre' ih =>
    rw [List.cons_append, domSub.eq_def]
    have hc : c ≠ '\n' := fun he => hnl (he ▸ List.mem_cons_self c pre')
    have hih := ih (fun hm => hnl (List.mem_cons_of_mem c hm))
    simp [hc, hih]

theorem domSub_elim (d : List Char) : ∀ h : List Char, domSub d h = true →
    ∃ pre, h = pre ++ '.' :: d ∧ '\n' ∉ pre := by
  intro h
  induction h with
  | nil =>
    rw [domSub.eq_def]
    simp
  | cons c h' ih =>
    rw [domSub.eq_def]
    intro hs
    rw [Bool.or_eq_true] at hs
    rcases hs with hs | hs
    · refine ⟨[], ?_, by simp⟩
      simpa using (beq_iff_eq.mp hs)
    · rw [Bool.and_eq_true] at hs
      obtain ⟨hc, hsub⟩ := hs
      obtain ⟨pre', hpre', hnl'⟩ := ih hsub
      refine ⟨c :: pre', by rw [List.cons_append, hpre'], ?_⟩
      intro hm
      rcases List.mem_cons.mp hm with rfl | hm'
      · simp at hc
      · exact hnl' hm'

/-- Characterisation of `^(.*\.)?DOMAIN$` on a newline-free hostname:
the hostname equals the domain or ends in `.DOMAIN`. -/
theorem domMatch_iff (d h : List Char) (hnl : '\n' ∉ h) :
    domMatch d h = true ↔ (h = d ∨ ∃ pre, h = pre ++ '.' :: d) := by
  unfold domMatch
  rw [Bool.or_eq_true]
  constructor
  · rintro (hq | hq)
    · exact Or.inl (by simpa using hq)
    · obtain ⟨pre, hpre, -⟩ := domSub_elim d h hq
      exact Or.inr ⟨pre, hpre⟩
  · rintro (rfl | ⟨pre, hpre⟩)
    · exact Or.inl (by simp)
    · refine Or.inr ?_
      have hnlpre : '\n' ∉ pre := by
        intro hm
        exact hnl (hpre ▸ List.mem_append.mpr (Or.inl hm))
      rw [hpre]
      exact domSub_true_of d pre hnlpre

/-- C9: for a source with a present domain list whose entries are made
of hostname characters, and a newline-free URL hostname, the domain
predicate holds exactly when the hostname equals one of the source's
domains or extends one of them by leading labels ending in a dot —
dot-for-dot, so `exampleX.com`, `Xexample.com` or
`example.com.fake.com` never match `example.com`. -/
theorem C9_domain_iff (src : Source) (url : URLm) (ds : List String)
    (hdom : src.domains = some ds)
    (hsafe : ∀ d ∈ ds, d.data.all domSafeChar = true)
    (hnl : '\n' ∉ url.hostname.data) :
    isDomainInUrl url src = .ok true ↔
      ∃ d ∈ ds, url.hostname.data = d.data ∨
        ∃ pre, url.hostname.data = pre ++ '.' :: d.data := by
  have heq : isDomainInUrl url src = anyME ds (fun d =>
      if regexSyntaxOk (domainPattern d) = true then
        Except.ok (domMatch d.data url.hostname.data)
      else Except.error ()) := by
    unfold isDomainInUrl
    rw [hdom]
  rw [heq, anyME_ok ds _ (fun d => domMatch d.data url.hostname.data)
    (fun d hd => by rw [if_pos (regexSyntaxOk_domainPattern d (hsafe d hd))])]
  simp only [Except.ok.injEq]
  rw [List.any_eq_true]
  constructor
  · rintro ⟨d, hd, hm⟩
    exact ⟨d, hd, (domMatch_iff d.data url.hostname.data hnl).mp hm⟩
  · rintro ⟨d, hd, hm⟩
    exact ⟨d, hd, (domMatch_iff d.data url.hostname.data hnl).mpr hm⟩

/-- C9 witness: the characterisation applied to a concrete subdomain
hostname, with the explicit decomposition `"en.m" ++ "." ++ "foo.com"`. -/
theorem C9_witness :
    isDomainInUrl ⟨"en.m.foo.com", "/"⟩ srcDomain = .ok true :=
  (C9_domain_iff srcDomain ⟨"en.m.foo.com", "/"⟩ ["foo.com"]
      rfl (by decide) (by decide)).mpr
    ⟨"foo.com", by decide, Or.inr ⟨"en.m".data, by decide⟩⟩



/-! ## Claim C10 -/

/-- Distinctness of the association-list keys. -/
def keysDistinct (l : List (String × Source)) : Prop :=
  l.Pairwise (fun a b => a.1 ≠ b.1)

theorem mapSet_mem {l : List (String × Source)} {k : String} {v : Source}
    (e : String × Source) (he : e ∈ mapSet l k v) : e ∈ l ∨ e = (k, v) := by
  unfold mapSet at he
  by_cases hany : l.any (fun e => e.1 == k) = true
  · rw [if_pos hany] at he
    obtain ⟨e', he', heq⟩ := List.mem_map.mp he
    by_cases hk : e'.1 == k
    · rw [if_pos hk] at heq
      exact Or.inr heq.symm
    · rw [if_neg hk] at heq
      exact Or.inl (heq ▸ he')
  · rw [if_neg hany] at he
    rcases List.mem_append.mp he with h' | h'
    · exact Or.inl h'
    · exact Or.inr (by simpa using h')

theorem mapSet_keysDistinct {l : List (String × Source)} {k : String} {v : Source}
    (h : keysDistinct l) : keysDistinct (mapSet l k v) := by
  unfold mapSet
  by_cases hany : l.any (fun e => e.1 == k) = true
  · rw [if_pos hany]
    unfold keysDistinct at h ⊢
    refine List.Pairwise.map _ ?_ h
    intro a b hab
    have ha : ((if a.1 == k then (k, v) else a)).1 = a.1 := by
      by_cases hk : a.1 == k
      · rw [if_pos hk]
        exact (beq_iff_eq.mp hk).symm
      · rw [if_neg hk]
    have hb : ((if b.1 == k then (k, v) else b)).1 = b.1 := by
      by_cases hk : b.1 == k
      · rw [if_pos hk]
        exact (beq_iff_eq.mp hk).symm
      · rw [if_neg hk]
    rw [ha, hb]
    exact hab
  · rw [if_neg hany]
    unfold keysDistinct at h ⊢
    rw [List.pairwise_append]
    refine ⟨h, by simp, ?_⟩
    intro a ha b hb
    have hb' : b = (k, v) := by simpa using hb
    subst hb'
    intro hak
    rw [List.any_eq_true] at hany
    exact hany ⟨a, ha, by simpa using hak⟩

/-- Invariant of a matching loop: every entry of the output map was
already present, or is keyed by its own source's id, drawn from the
scanned registry, with one of the two predicates accepting it. -/
theorem findMatchesWith_inv (p1 p2 : Source → Except Unit Bool)
    (sources : List Source) (P : Source → Prop)
    (hP : ∀ src ∈ sources, (p1 src = .ok true ∨ p2 src = .ok true) → P src) :
    ∀ l m, findMatchesWith p1 p2 sources l = .ok m →
      ((∀ e ∈ m, e ∈ l ∨ (e.1 = e.2.id ∧ e.2 ∈ sources ∧ P e.2)) ∧
        (keysDistinct l → keysDistinct m)) := by
  induction sources with
  | nil =>
    intro l m h
    have hlm : l = m := by simpa [findMatchesWith] using h
    subst hlm
    exact ⟨fun e he => Or.inl he, id⟩
  | cons src rest ih =>
    intro l m h
    have hP1 : (p1 src = .ok true ∨ p2 src = .ok true) → P src :=
      hP src (List.mem_cons_self src rest)
    have hPrest : ∀ s ∈ rest, (p1 s = .ok true ∨ p2 s = .ok true) → P s :=
      fun s hs => hP s (List.mem_cons_of_mem _ hs)
    have ihr := ih hPrest
    rw [findMatchesWith] at h
    cases hb : p1 src with
    | error e =>
      rw [hb, error_bind] at h
      exact absurd h (by simp)
    | ok b =>
      rw [hb, ok_bind] at h
      cases b with
      | true =>
        have h' : findMatchesWith p1 p2 rest (mapSet l src.id src) = .ok m := by
          simpa using h
        obtain ⟨hmem, hkeys⟩ := ihr (mapSet l src.id src) m h'
        constructor
        · intro e he
          rcases hmem e he with hin | ⟨hid, hsrc, hps⟩
          · rcases mapSet_mem e hin with h'' | h''
            · exact Or.inl h''
            · exact Or.inr ⟨by rw [h''], by rw [h'']; exact List.mem_cons_self src rest,
                by rw [h'']; exact hP1 (Or.inl hb)⟩
          · exact Or.inr ⟨hid, List.mem_cons_of_mem _ hsrc, hps⟩
        · exact fun hl => hkeys (mapSet_keysDistinct hl)
      | false =>
        have h' : (p2 src >>= fun b2 =>
            if b2 then findMatchesWith p1 p2 rest (mapSet l src.id src)
            else findMatchesWith p1 p2 rest l) = .ok m := by
          simpa using h
        cases hb2 : p2 src with
        | error e =>
          rw [hb2, error_bind] at h'
          exact absurd h' (by simp)
        | ok b2 =>
          rw [hb2, ok_bind] at h'
          cases b2 with
          | true =>
            have h'' : findMatchesWith p1 p2 rest (mapSet l src.id src) = .ok m := by
              simpa using h'
            obtain ⟨hmem, hkeys⟩ := ihr (mapSet l src.id src) m h''
            constructor
            · intro e he
              rcases hmem e he with hin | ⟨hid, hsrc, hps⟩
              · rcases mapSet_mem e hin with h3 | h3
                · exact Or.inl h3
                · exact Or.inr ⟨by rw [h3], by rw [h3]; exact List.mem_cons_self src rest,
                    by rw [h3]; exact hP1 (Or.inr hb2)⟩
              · exact Or.inr ⟨hid, List.mem_cons_of_mem _ hsrc, hps⟩
            · exact fun hl => hkeys (mapSet_keysDistinct hl)
          | false =>
            have h'' : findMatchesWith p1 p2 rest l = .ok m := by
              simpa using h'
            obtain ⟨hmem, hkeys⟩ := ihr l m h''
            constructor
            · intro e he
              rcases hmem e he with hin | ⟨hid, hsrc, hps⟩
              · exact Or.inl hin
              · exact Or.inr ⟨hid, List.mem_cons_of_mem _ hsrc, hps⟩
            · exact hkeys

/-- All the ways a source can have matched the post on some channel. -/
def matchedAnyChannel (post : PostData) (settings : AppSettings) (src : Source) : Prop :=
  isNameInTitle post.titleNormalized src = .ok true ∨
  isTwitterInTitle post.titleNormalized src = .ok true ∨
  (∃ u, post.url = some u ∧
    (isTwitterInUrl u src = .ok true ∨ isDomainInUrl u src = .ok true)) ∨
  (∃ us, post.links = some us ∧
    (isTwitterInLinks us src = .ok true ∨ isDomainInLinks us src = .ok true)) ∨
  ((truthy post.bodyNormalized && settings.analyzePostBody) = true ∧
    (isNameInBody (post.bodyNormalized.getD "") src = .ok true ∨
      isTwitterInBody (post.bodyNormalized.getD "") src = .ok true))

/-- Per-entry soundness of the accumulated map after all four stages. -/
theorem stages_entryOk (post : PostData) (settings : AppSettings)
    (m1 m2 m3 m4 : List (String × Source))
    (h1 : findMatchesInTitle post.titleNormalized settings.sources [] = .ok m1)
    (h2 : urlStep post settings m1 = .ok m2)
    (h3 : linksStep post settings m2 = .ok m3)
    (h4 : bodyStep post settings m3 = .ok m4) :
    (∀ e ∈ m4, e.1 = e.2.id ∧ e.2 ∈ settings.sources ∧
      matchedAnyChannel post settings e.2) ∧ keysDistinct m4 := by
  have s1 := findMatchesWith_inv (isNameInTitle post.titleNormalized)
    (isTwitterInTitle post.titleNormalized) settings.sources
    (matchedAnyChannel post settings)
    (fun src _ hp => by
      rcases hp with hp | hp
      · exact Or.inl hp
      · exact Or.inr (Or.inl hp)) [] m1 h1
  have hm1 : ∀ e ∈ m1, e.1 = e.2.id ∧ e.2 ∈ settings.sources ∧
      matchedAnyChannel post settings e.2 := by
    intro e he
    rcases s1.1 e he with hin | hok
    · simp at hin
    · exact hok
  have hk1 : keysDistinct m1 := s1.2 (by simp [keysDistinct])
  have step2 : (∀ e ∈ m2, e.1 = e.2.id ∧ e.2 ∈ settings.sources ∧
      matchedAnyChannel post settings e.2) ∧ keysDistinct m2 := by
    unfold urlStep at h2
    cases hu : post.url with
    | none =>
      rw [hu] at h2
      have : m1 = m2 := by simpa using h2
      exact this ▸ ⟨hm1, hk1⟩
    | some u =>
      rw [hu] at h2
      have s2 := findMatchesWith_inv (isTwitterInUrl u) (isDomainInUrl u)
        settings.sources (matchedAnyChannel post settings)
        (fun src _ hp => Or.inr (Or.inr (Or.inl ⟨u, hu, hp⟩))) m1 m2 h2
      refine ⟨?_, s2.2 hk1⟩
      intro e he
      rcases s2.1 e he with hin | hok
      · exact hm1 e hin
      · exact hok
  have step3 : (∀ e ∈ m3, e.1 = e.2.id ∧ e.2 ∈ settings.sources ∧
      matchedAnyChannel post settings e.2) ∧ keysDistinct m3 := by
    unfold linksStep at h3
    cases hu : post.links with
    | none =>
      rw [hu] at h3
      have : m2 = m3 := by simpa using h3
      exact this ▸ step2
    | some us =>
      rw [hu] at h3
      have s3 := findMatchesWith_inv (isTwitterInLinks us) (isDomainInLinks us)
        settings.sources (matchedAnyChannel post settings)
        (fun src _ hp => Or.inr (Or.inr (Or.inr (Or.inl ⟨us, hu, hp⟩)))) m2 m3 h3
      refine ⟨?_, s3.2 step2.2⟩
      intro e he
      rcases s3.1 e he with hin | hok
      · exact step2.1 e hin
      · exact hok
  unfold bodyStep at h4
  by_cases hb : (truthy post.bodyNormalized && settings.analyzePostBody) = true
  · rw [if_pos hb] at h4
    have s4 := findMatchesWith_inv (isNameInBody (post.bodyNormalized.getD ""))
      (isTwitterInBody (post.bodyNormalized.getD "")) settings.sources
      (matchedAnyChannel post settings)
      (fun src _ hp => Or.inr (Or.inr (Or.inr (Or.inr ⟨hb, hp⟩)))) m3 m4 h4
    refine ⟨?_, s4.2 step3.2⟩
    intro e he
    rcases s4.1 e he with hin | hok
    · exact step3.1 e hin
    · exact hok
  · rw [if_neg hb] at h4
    have : m3 = m4 := by simpa using h4
    exact this ▸ step3

/-- C10: every element of a non-null result of `findSourcesInPost` comes
from `settings.sources` and satisfies at least one channel predicate for
the post, and no two elements of the result share an id. -/
theorem C10_sound_and_dedup (post : PostData) (settings : AppSettings)
    (l : List Source) (h : findSourcesInPost post settings = .ok (some l)) :
    (∀ src ∈ l, src ∈ settings.sources ∧ matchedAnyChannel post settings src) ∧
      l.Pairwise (fun a b => a.id ≠ b.id) := by
  obtain ⟨m1, m2, m3, m4, h1, h2, h3, h4, hl⟩ :=
    findSourcesInPost_ok_elim post settings l h
  obtain ⟨hok, hkeys⟩ := stages_entryOk post settings m1 m2 m3 m4 h1 h2 h3 h4
  have hperm : List.Perm (sortByTier (m4.map Prod.snd)) (m4.map Prod.snd) :=
    sortByTier_perm _
  constructor
  · intro src hsrc
    have hsrc' : src ∈ m4.map Prod.snd := hperm.mem_iff.mp (hl ▸ hsrc)
    obtain ⟨e, he, heq⟩ := List.mem_map.mp hsrc'
    obtain ⟨-, hmem, hmatch⟩ := hok e he
    exact ⟨heq ▸ hmem, heq ▸ hmatch⟩
  · have hpw : m4.Pairwise (fun a b => a.2.id ≠ b.2.id) := by
      refine hkeys.imp_of_mem ?_
      intro a b ha hb hab
      have ha' := (hok a ha).1
      have hb' := (hok b hb).1
      rw [← ha', ← hb']
      exact hab
    have hmap : (m4.map Prod.snd).Pairwise (fun a b => a.id ≠ b.id) :=
      List.pairwise_map.mpr hpw
    rw [hl]
    exact ((hperm.pairwise_iff (fun hab heq => hab heq.symm)).mpr hmap)

/-- C10 witness: the soundness and dedup property applied to a concrete
two-source run. -/
theorem C10_witness :
    (∀ src ∈ ([srcUntiered, srcTier7] : List Source),
      src ∈ (⟨[srcUntiered, srcTier7], "", "", "", false, [], ""⟩ : AppSettings).sources ∧
        matchedAnyChannel ⟨"p", "s", "alpha beta", none, none, none⟩
          ⟨[srcUntiered, srcTier7], "", "", "", false, [], ""⟩ src) ∧
      ([srcUntiered, srcTier7] : List Source).Pairwise (fun a b => a.id ≠ b.id) :=
  C10_sound_and_dedup ⟨"p", "s", "alpha beta", none, none, none⟩
    ⟨[srcUntiered, srcTier7], "", "", "", false, [], ""⟩ _ (by decide)


end MediaReliability
